import Mathlib

/-!
Verification of the `os_daily` scripts (`scripts/run_sys_prompt_agent.py`,
`scripts/run_sys_prompt_agent_gdoc.py`, `scripts/tavily_summary.py`,
`scripts/web_search.py`).

Strings are modelled as `List Char`.  Python text functions used by the
scripts are embedded as executable Lean functions:

* `splitlines` models `str.splitlines()` (line boundaries `\n`, `\r`,
  `\r\n`, `\x0b`, `\x0c`, `\x1c`, `\x1d`, `\x1e`, `\x85`, ` `,
  ` `; no trailing empty line for a trailing terminator).
* `isPySpace` models the character class `\s` of Python `re` for `str`
  patterns, and the default strip set of `str.strip()` (both are the
  Unicode whitespace set; we list it explicitly).
* The regex `Open Science News Digest\s*[—-]\s*\d{4}-\d{2}-\d{2}` is
  embedded as the token list `headingToks` run by `runPat`.  The regex
  engine needs no backtracking here: each `\s*` is followed by a token
  (`[—-]` or `\d`) that never matches a whitespace character, so greedy
  matching is equivalent to `dropWhile` + a mandatory-token check.
  `\d` is modelled as the ASCII digits (the exotic non-ASCII Unicode
  decimal digits accepted by Python's `\d` are not modelled).
* `re.sub` scans left to right, replacing each non-overlapping match and
  resuming after it; this is `subHeading` (written with a fuel argument
  so that it is structurally recursive and kernel-computable).
-/

/-- Python whitespace (`str.isspace`, `re` class `\s` for `str` patterns,
default set of `str.strip()`). -/
def isPySpace (c : Char) : Bool :=
  c = ' ' || c = '\t' || c = '\n' || c = '\r' || c = '\x0b' || c = '\x0c' ||
  c = '\x1c' || c = '\x1d' || c = '\x1e' || c = '\x1f' || c = '\x85' || c = '\xa0' ||
  c = ' ' || (' ' ≤ c && c ≤ ' ') || c = ' ' || c = ' ' ||
  c = ' ' || c = ' ' || c = '　'

/-- Line boundaries of `str.splitlines()`. -/
def isLineBreakCh (c : Char) : Bool :=
  c = '\n' || c = '\r' || c = '\x0b' || c = '\x0c' || c = '\x1c' ||
  c = '\x1d' || c = '\x1e' || c = '\x85' || c = ' ' || c = ' '

/-- Prepend a character to the first line of a line list (a character
that is not a line boundary extends the current line). -/
def consLine (c : Char) : List (List Char) → List (List Char)
  | [] => [[c]]
  | l :: ls => (c :: l) :: ls

/-- `str.splitlines()`: split at line boundaries, `\r\n` counting as a
single boundary; a trailing boundary produces no trailing empty line.
(Written with disjoint patterns — a one-character lookahead — so that
clean equation lemmas are generated.) -/
def splitlines : List Char → List (List Char)
  | [] => []
  | [c] => if isLineBreakCh c then [[]] else [[c]]
  | c1 :: c2 :: rest =>
    if c1 = '\r' && c2 = '\n' then [] :: splitlines rest
    else if isLineBreakCh c1 then [] :: splitlines (c2 :: rest)
    else consLine c1 (splitlines (c2 :: rest))

/-- `"\n".join(lines)`. -/
def joinLines : List (List Char) → List Char
  | [] => []
  | [l] => l
  | l :: ls => l ++ '\n' :: joinLines ls

/-- ASCII digit test (models `\d` of the heading regex and the digit
checks of `date.fromisoformat`). -/
def isAsciiDigit (c : Char) : Bool := 48 ≤ c.toNat && c.toNat ≤ 57

/-- One token of the embedded heading regex. -/
inductive PTok where
  | lit (c : Char)
  | spaces
  | dash
  | digit
deriving DecidableEq

/-- The literal `Open Science News Digest` (24 characters). -/
def headingLit : List Char :=
  ['O', 'p', 'e', 'n', ' ', 'S', 'c', 'i', 'e', 'n', 'c', 'e', ' ',
   'N', 'e', 'w', 's', ' ', 'D', 'i', 'g', 'e', 's', 't']

/-- Token form of the regex
`Open Science News Digest\s*[—-]\s*\d{4}-\d{2}-\d{2}`. -/
def headingToks : List PTok :=
  headingLit.map PTok.lit ++
  [PTok.spaces, PTok.dash, PTok.spaces,
   PTok.digit, PTok.digit, PTok.digit, PTok.digit, PTok.lit '-',
   PTok.digit, PTok.digit, PTok.lit '-', PTok.digit, PTok.digit]

/-- Deterministic matcher for a token list at the head of the input;
returns the rest of the input after the match. -/
def runPat : List PTok → List Char → Option (List Char)
  | [], s => some s
  | PTok.spaces :: ps, s => runPat ps (s.dropWhile isPySpace)
  | PTok.lit c :: ps, x :: s => if x = c then runPat ps s else none
  | PTok.dash :: ps, x :: s => if x = '—' || x = '-' then runPat ps s else none
  | PTok.digit :: ps, x :: s => if isAsciiDigit x then runPat ps s else none
  | _ :: _, [] => none

/-- Replacement text `f"Open Science News Digest — {iso}"`. -/
def headingRepl (iso : List Char) : List Char :=
  headingLit ++ ' ' :: '—' :: ' ' :: iso

theorem length_dropWhile_le' (p : Char → Bool) :
    ∀ (l : List Char), (l.dropWhile p).length ≤ l.length := by
  intro l
  induction l with
  | nil => simp [List.dropWhile]
  | cons c rest ih =>
    simp only [List.dropWhile]
    cases p c with
    | true => simpa using Nat.le_trans ih (Nat.le_succ _)
    | false => simp

theorem runPat_length_le :
    ∀ (ps : List PTok) (s t : List Char), runPat ps s = some t → t.length ≤ s.length := by
  intro ps
  induction ps with
  | nil =>
    intro s t h
    simp only [runPat, Option.some.injEq] at h
    exact le_of_eq (by rw [h])
  | cons p ps ih =>
    intro s t h
    cases p with
    | spaces =>
      simp only [runPat] at h
      exact le_trans (ih _ _ h) (length_dropWhile_le' _ _)
    | lit c =>
      cases s with
      | nil => simp [runPat] at h
      | cons x s =>
        simp only [runPat] at h
        by_cases hx : x = c
        · simp only [hx, if_pos rfl] at h
          exact le_trans (ih _ _ h) (Nat.le_succ _)
        · simp [hx] at h
    | dash =>
      cases s with
      | nil => simp [runPat] at h
      | cons x s =>
        simp only [runPat] at h
        by_cases hx : (x = '—' || x = '-') = true
        · rw [if_pos hx] at h
          exact le_trans (ih _ _ h) (Nat.le_succ _)
        · rw [if_neg hx] at h; exact absurd h (by simp)
    | digit =>
      cases s with
      | nil => simp [runPat] at h
      | cons x s =>
        simp only [runPat] at h
        by_cases hx : isAsciiDigit x = true
        · rw [if_pos hx] at h
          exact le_trans (ih _ _ h) (Nat.le_succ _)
        · rw [if_neg hx] at h; exact absurd h (by simp)

/-- A full-pattern match on a nonempty input consumes at least one
character (the pattern starts with the literal `O`). -/
theorem runPat_heading_lt (c : Char) (rest t : List Char)
    (h : runPat headingToks (c :: rest) = some t) : t.length ≤ rest.length := by
  rw [show headingToks = PTok.lit 'O' :: headingToks.tail from rfl] at h
  simp only [runPat] at h
  by_cases hO : c = 'O'
  · rw [if_pos hO] at h
    exact runPat_length_le _ _ _ h
  · rw [if_neg hO] at h
    exact absurd h (by simp)

/-- `re.sub` scanning loop, with fuel (`fuel ≥ input length` always holds
at call sites). -/
def subHeadingGo (iso : List Char) : Nat → List Char → List Char
  | 0, _ => []
  | _ + 1, [] => []
  | fuel + 1, c :: rest =>
    match runPat headingToks (c :: rest) with
    | some after => headingRepl iso ++ subHeadingGo iso fuel after
    | none => c :: subHeadingGo iso fuel rest

/-- `re.sub(r"Open Science News Digest\s*[—-]\s*\d{4}-\d{2}-\d{2}",
f"Open Science News Digest — {iso}", body)`. -/
def subHeading (iso : List Char) (s : List Char) : List Char :=
  subHeadingGo iso s.length s

theorem subHeadingGo_nil (iso : List Char) (f : Nat) : subHeadingGo iso f [] = [] := by
  cases f <;> rfl

theorem subHeadingGo_fuel_irrel (iso : List Char) :
    ∀ (n : Nat) (s : List Char), s.length ≤ n → ∀ f₁ f₂, s.length ≤ f₁ → s.length ≤ f₂ →
      subHeadingGo iso f₁ s = subHeadingGo iso f₂ s := by
  intro n
  induction n with
  | zero =>
    intro s hs f₁ f₂ _ _
    have : s = [] := List.length_eq_zero.mp (Nat.le_zero.mp hs)
    subst this
    rw [subHeadingGo_nil, subHeadingGo_nil]
  | succ n ih =>
    intro s hs f₁ f₂ h₁ h₂
    cases s with
    | nil => rw [subHeadingGo_nil, subHeadingGo_nil]
    | cons c rest =>
      obtain ⟨g₁, rfl⟩ : ∃ g, f₁ = g + 1 := by
        cases f₁ with
        | zero => simp at h₁
        | succ g => exact ⟨g, rfl⟩
      obtain ⟨g₂, rfl⟩ : ∃ g, f₂ = g + 1 := by
        cases f₂ with
        | zero => simp at h₂
        | succ g => exact ⟨g, rfl⟩
      simp only [List.length_cons] at hs h₁ h₂
      cases hm : runPat headingToks (c :: rest) with
      | some after =>
        have hlen : after.length ≤ rest.length := runPat_heading_lt _ _ _ hm
        simp only [subHeadingGo, hm]
        rw [ih after (by omega) g₁ g₂ (by omega) (by omega)]
      | none =>
        simp only [subHeadingGo, hm]
        rw [ih rest (by omega) g₁ g₂ (by omega) (by omega)]

theorem subHeading_nil (iso : List Char) : subHeading iso [] = [] := rfl

theorem subHeading_match (iso : List Char) (c : Char) (rest after : List Char)
    (h : runPat headingToks (c :: rest) = some after) :
    subHeading iso (c :: rest) = headingRepl iso ++ subHeading iso after := by
  have hlen : after.length ≤ rest.length := runPat_heading_lt _ _ _ h
  simp only [subHeading, List.length_cons, subHeadingGo, h]
  rw [subHeadingGo_fuel_irrel iso after.length after (Nat.le_refl _) rest.length after.length
    (by omega) (Nat.le_refl _)]

theorem subHeading_cons_none (iso : List Char) (c : Char) (rest : List Char)
    (h : runPat headingToks (c :: rest) = none) :
    subHeading iso (c :: rest) = c :: subHeading iso rest := by
  simp only [subHeading, List.length_cons, subHeadingGo, h]

/-! ## Date parsing and formatting (`datetime.date`) -/

/-- `digitChar n` is the ASCII digit for `n % 10`. -/
def digitChar10 (n : Nat) : Char :=
  match n % 10 with
  | 0 => '0' | 1 => '1' | 2 => '2' | 3 => '3' | 4 => '4'
  | 5 => '5' | 6 => '6' | 7 => '7' | 8 => '8' | _ => '9'

def digitVal (c : Char) : Nat := c.toNat - 48

/-- Gregorian leap year, as in `datetime`. -/
def isLeap (y : Nat) : Bool := y % 4 = 0 && (y % 100 ≠ 0 || y % 400 = 0)

def daysInMonth (y m : Nat) : Nat :=
  if m = 2 then (if isLeap y then 29 else 28)
  else if m = 4 || m = 6 || m = 9 || m = 11 then 30
  else 31

/-- The validity check of `datetime.date(y, m, d)` (`MINYEAR = 1`,
`MAXYEAR = 9999`). -/
def validDate (y m d : Nat) : Bool :=
  1 ≤ y && y ≤ 9999 && 1 ≤ m && m ≤ 12 && 1 ≤ d && d ≤ daysInMonth y m

/-- `date.fromisoformat`: exactly `YYYY-MM-DD` with ASCII digits, then the
calendar validity check.  (The `int()` leniency for signs/underscores in
some CPython versions is not modelled; no claim depends on it.) -/
def parseIsoDate : List Char → Option (Nat × Nat × Nat)
  | [y1, y2, y3, y4, '-', m1, m2, '-', d1, d2] =>
    if isAsciiDigit y1 && isAsciiDigit y2 && isAsciiDigit y3 && isAsciiDigit y4 &&
       isAsciiDigit m1 && isAsciiDigit m2 && isAsciiDigit d1 && isAsciiDigit d2 then
      let y := digitVal y1 * 1000 + digitVal y2 * 100 + digitVal y3 * 10 + digitVal y4
      let m := digitVal m1 * 10 + digitVal m2
      let d := digitVal d1 * 10 + digitVal d2
      if validDate y m d then some (y, m, d) else none
    else none
  | _ => none

/-- `date.isoformat()`: `%04d-%02d-%02d` (dates always have `y ≤ 9999`). -/
def isoStr (y m d : Nat) : List Char :=
  [digitChar10 (y / 1000), digitChar10 (y / 100), digitChar10 (y / 10), digitChar10 y,
   '-', digitChar10 (m / 10), digitChar10 m, '-', digitChar10 (d / 10), digitChar10 d]

/-! ## The `Date:` line rewrite of `sanitize_digest_for_issue` -/

/-- `re.match(r"^Date:\s*(.*)$", line)` succeeds iff the line starts with
`Date:` (a line from `splitlines` contains no `\n`, so `.*$` always
reaches the end). -/
def startsWithDate : List Char → Bool
  | 'D' :: 'a' :: 't' :: 'e' :: ':' :: _ => true
  | _ => false

/-- `str.strip()` with the default whitespace set. -/
def stripBoth (s : List Char) : List Char :=
  ((s.dropWhile isPySpace).reverse.dropWhile isPySpace).reverse

/-- `m.group(1).strip()`: the text after `Date:` with the `\s*` prefix
consumed by the regex, then stripped. -/
def dateCandidate (l : List Char) : List Char :=
  stripBoth ((l.drop 5).dropWhile isPySpace)

def dateUnknownLine : List Char :=
  ['D', 'a', 't', 'e', ':', ' ', 'u', 'n', 'k', 'n', 'o', 'w', 'n']

/-- The body of the `if m:` branch: `f"Date: {iso}"` when the candidate
parses with `date.fromisoformat`, else `"Date: unknown"`. -/
def rewriteDateLine (iso l : List Char) : List Char :=
  if (parseIsoDate (dateCandidate l)).isSome then
    'D' :: 'a' :: 't' :: 'e' :: ':' :: ' ' :: iso
  else dateUnknownLine

/-- The `for i in range(min(6, len(lines)))` scan with `break` at the
first matching line; `fuel` is the number of lines still allowed to be
inspected (initially 6). -/
def fixDateLines (iso : List Char) : Nat → List (List Char) → List (List Char)
  | _, [] => []
  | 0, ls => ls
  | fuel + 1, l :: ls =>
    if startsWithDate l then rewriteDateLine iso l :: ls
    else l :: fixDateLines iso fuel ls

/-- `sanitize_digest_for_issue(body, issue_date)` for
`issue_date = date(y, m, d)`: heading substitution, then
`splitlines`, the first-six-lines `Date:` rewrite, and `"\n".join`. -/
def sanitize_digest_for_issue (body : List Char) (y m d : Nat) : List Char :=
  let iso := isoStr y m d
  joinLines (fixDateLines iso 6 (splitlines (subHeading iso body)))

/-! ## `tavily_summary.py`: the direct-HTTP retry loop of `tavily_search`

The fallback HTTP path loops `for attempt in range(1, attempts + 1)`:

* a successful `requests.post` returns the parsed items immediately;
* a `requests.exceptions.ConnectionError` logs, records `last_exc`,
  sleeps `backoff` seconds, doubles `backoff`, and continues — note the
  sleep happens on *every* connection failure, including the final one;
* any other exception is re-raised immediately;
* falling out of the loop raises
  `RuntimeError(f"Tavily API connection failed after {attempts} attempts: {last_exc}")`.

The network is abstracted as `oracle`, mapping the attempt number
(1-based) to the outcome of that attempt.  Sleep durations (floats in
Python; doubling is exact there too) are modelled as rationals and
accumulated in a trace list. -/

structure SearchResult where
  title : List Char
  snippet : List Char
  url : List Char
deriving DecidableEq

inductive ReqOutcome where
  | ok (items : List SearchResult)
  | connErr (msg : List Char)
  | otherErr (msg : List Char)

inductive TavilyErr where
  | http (msg : List Char)
  | exhausted (attempts : Nat) (last : Option (List Char))
deriving DecidableEq

def tavilyGo (oracle : Nat → ReqOutcome) (total : Nat) :
    Nat → Nat → Rat → Option (List Char) → List Rat →
    Except TavilyErr (List SearchResult) × List Rat
  | 0, _, _, last, sleeps => (Except.error (TavilyErr.exhausted total last), sleeps)
  | rem + 1, k, backoff, _, sleeps =>
    match oracle k with
    | ReqOutcome.ok items => (Except.ok items, sleeps)
    | ReqOutcome.connErr e =>
      tavilyGo oracle total rem (k + 1) (2 * backoff) (some e) (sleeps ++ [backoff])
    | ReqOutcome.otherErr e => (Except.error (TavilyErr.http e), sleeps)

/-- The direct-HTTP retry loop of `tavily_search`, with `attempts` from
`TAVILY_RETRIES` (default 3) and `backoff` from `TAVILY_BACKOFF`
(default 1.0). -/
def tavily_search_http (oracle : Nat → ReqOutcome) (attempts : Nat) (backoff : Rat) :
    Except TavilyErr (List SearchResult) × List Rat :=
  tavilyGo oracle attempts attempts 1 backoff none []

def natToChars (n : Nat) : List Char := Nat.toDigits 10 n

/-- Rendering of the exhaustion error:
`f"Tavily API connection failed after {attempts} attempts: {last_exc}"`. -/
def exhaustMsg (attempts : Nat) (last : List Char) : List Char :=
  "Tavily API connection failed after ".data ++ natToChars attempts ++
  " attempts: ".data ++ last

/-- The default endpoint (`TAVILY_API_URL` unset). -/
def defaultTavilyUrl : List Char := "https://api.tavily.ai/v1/search".data

/-! ## `tavily_summary.py`: `build_search_context` -/

/-- Python slice `s[:i]` for an `int` index (negative counts from the
end). -/
def pySlice (s : List Char) (i : Int) : List Char :=
  if 0 ≤ i then s.take i.toNat else s.take (s.length - (-i).toNat)

/-- One entry of `parts`:
`"".join([f"Title: {t}\n" if t else "", f"Snippet: {s}\n" if s else "",
f"URL: {u}\n" if u else ""]).strip()`. -/
def resLine (r : SearchResult) : List Char :=
  stripBoth
    ((if r.title ≠ [] then "Title: ".data ++ r.title ++ ['\n'] else []) ++
     (if r.snippet ≠ [] then "Snippet: ".data ++ r.snippet ++ ['\n'] else []) ++
     (if r.url ≠ [] then "URL: ".data ++ r.url ++ ['\n'] else []))

/-- `"\n\n".join(parts)`. -/
def joinTwoNL : List (List Char) → List Char
  | [] => []
  | [p] => p
  | p :: ps => p ++ '\n' :: '\n' :: joinTwoNL ps

def searchBlob (results : List SearchResult) : List Char :=
  joinTwoNL ("Search results (from Tavily):".data :: results.map resLine)

/-- `build_search_context(results, max_chars)` (default `max_chars`
4000; negative Python ints are out of scope, `max_chars : Nat`). -/
def build_search_context (results : List SearchResult) (maxChars : Nat) : List Char :=
  if results = [] then []
  else
    let blob := searchBlob results
    let blob' := if maxChars < blob.length
      then pySlice blob ((maxChars : Int) - 3) ++ "...".data
      else blob
    blob' ++ ['\n', '\n']

/-! ## `web_search.py`: `web_search`

In the default (non-Google-CSE) branch the caller's `query` argument is
overwritten by a fixed literal before `_duckduckgo_search_html` is
called; a `requests.RequestException` yields `[]`.  The DuckDuckGo
HTTP-and-parse step is abstracted as an oracle from the issued request
`(query, max_results)` to an outcome; the issued request is also
returned so that theorems can speak about it.  Empty-string credentials
are falsy in Python, so credentials are `Option`s with `none` for
missing/empty. -/

structure WebDoc where
  title : List Char
  url : List Char
  snippet : List Char
deriving DecidableEq

inductive DdgOutcome where
  | ok (rs : List WebDoc)
  | reqExc

/-- The hardcoded "richer, freshness-focused" query that replaces the
caller's query in the default branch. -/
def hardcodedQuery : List Char :=
  "open science news (preprint OR policy OR \"open-access\" OR reproducibility) (today OR yesterday OR \"past 48 hours\")".data

inductive WebSearchOut where
  | results (issued : List Char × Nat) (rs : List WebDoc)
  | valueError
deriving DecidableEq

def web_search (useGoogleCse : Bool) (googleApiKey googleCx : Option (List Char))
    (gcse : List Char → Nat → List WebDoc) (ddg : List Char → Nat → DdgOutcome)
    (query : List Char) (maxResults : Nat) : WebSearchOut :=
  if useGoogleCse then
    match googleApiKey, googleCx with
    | some _, some _ => WebSearchOut.results (query, maxResults) (gcse query maxResults)
    | _, _ => WebSearchOut.valueError
  else
    let issued := hardcodedQuery
    match ddg issued maxResults with
    | DdgOutcome.ok rs => WebSearchOut.results (issued, maxResults) rs
    | DdgOutcome.reqExc => WebSearchOut.results (issued, maxResults) []

/-! ## `run_sys_prompt_agent.py`: `_extract_text_from_choice`

The choice object is duck-typed; each Python probe is modelled by a
field recording its outcome: `Except.error ()` models a raised
exception, `Except.ok none` a returned `None`, `Except.ok (some s)` a
returned string.  A probe that *returns* (even `None` or `""`) exits the
extraction function with that value; only a raised exception moves on to
the next strategy (except where noted). -/

structure ChoiceMsg where
  /-- `msg["content"]` -/
  subContent : Except Unit (Option (List Char))
  /-- `getattr(msg, "content", None)` (absent attribute returns `None`). -/
  attrContent : Except Unit (Option (List Char))

structure Choice where
  /-- `ch["message"]["content"]` -/
  subMessageContent : Except Unit (Option (List Char))
  /-- `getattr(ch, "message", None)` -/
  attrMessage : Except Unit (Option ChoiceMsg)
  /-- strategy 3: `some v` iff `isinstance(ch, dict)` and
  `ch.get("message")` is a dict, with `v = m.get("content")`. -/
  dictMessageContent : Option (Option (List Char))
  /-- `ch["text"]` -/
  subText : Except Unit (Option (List Char))
  /-- `getattr(ch, "text", None)` -/
  attrText : Option (List Char)

/-- Strategies 3–5 (fallback tail shared by the failure paths above). -/
def extractFallback (ch : Choice) : Option (List Char) :=
  match ch.dictMessageContent with
  | some v => v
  | none =>
    match ch.subText with
    | Except.ok v => v
    | Except.error _ => ch.attrText

def _extract_text_from_choice (ch : Choice) : Option (List Char) :=
  match ch.subMessageContent with
  | Except.ok v => v
  | Except.error _ =>
    match ch.attrMessage with
    | Except.ok (some msg) =>
      match msg.subContent with
      | Except.ok v => v
      | Except.error _ =>
        match msg.attrContent with
        | Except.ok v => v
        | Except.error _ => extractFallback ch
    | _ => extractFallback ch

inductive ExtractErr where
  | noContent
deriving DecidableEq

/-- Python `x or ""` for an optional string. -/
def orEmptyStr : Option (List Char) → List Char
  | some s => s
  | none => []

/-- Lines 157–162 of `run_sys_prompt_agent.py`:
`text = _extract_text_from_choice(choice) or ""`,
`text = (text or "").strip()`, return it if non-empty, else
`raise RuntimeError("OpenAI v1 client returned no content in choices[0].message")`.
(The surrounding `try` of `call_openai_system` catches this error and
falls back to the legacy client; the v1 path itself never returns an
empty string.) -/
def call_openai_system_v1 (ch : Choice) : Except ExtractErr (List Char) :=
  let text := stripBoth (orEmptyStr (_extract_text_from_choice ch))
  if text = [] then Except.error ExtractErr.noContent else Except.ok text

/-! ## `tavily_summary.py`: the extraction inside `call_openai_summary`

This variant chains strategies with `if not text:` (so an *empty* result
also falls through), and at the end returns `(text or "").strip()` with
no emptiness check: all-empty strategies produce `Except.ok ""`. -/

structure SummaryMsg where
  isDict : Bool
  /-- `msg.get("content")` when `msg` is a dict. -/
  dictContent : Option (List Char)
  /-- `getattr(msg, "content", None)` -/
  attrContent : Option (List Char)
  /-- `some r` iff `hasattr(msg, "get")`; `r` is `msg.get("content")`
  (`none` if that call raised). -/
  getContent : Option (Option (List Char))

structure SummaryChoice where
  isDict : Bool
  /-- `choice.get("message", {}).get("content")` when a dict. -/
  dictMessageContent : Option (List Char)
  /-- `getattr(choice, "message", None)` inside the `try`. -/
  attrMessage : Except Unit (Option SummaryMsg)
  /-- `choice.get("text")` when a dict. -/
  dictText : Option (List Char)
  /-- `getattr(choice, "text", None)` (or `none` if it raised). -/
  attrText : Except Unit (Option (List Char))
  /-- group(1) of `re.search(r"content\s*=\s*\"(.*?)\"", str(choice))`. -/
  reprContent : Option (List Char)

def summaryStep1 (ch : SummaryChoice) : Option (List Char) :=
  if ch.isDict then ch.dictMessageContent
  else
    match ch.attrMessage with
    | Except.error _ => none
    | Except.ok none => none
    | Except.ok (some msg) =>
      if msg.isDict then msg.dictContent
      else
        match msg.attrContent with
        | some c => some c
        | none =>
          match msg.getContent with
          | some r => r
          | none => none

/-- Python truthiness of an optional string. -/
def isTruthyStr : Option (List Char) → Bool
  | some s => s ≠ []
  | none => false

def summaryText (ch : SummaryChoice) : Option (List Char) :=
  let t1 := summaryStep1 ch
  let t2 := if isTruthyStr t1 then t1
    else if ch.isDict then ch.dictText
    else match ch.attrText with
      | Except.ok v => v
      | Except.error _ => none
  if isTruthyStr t2 then t2 else ch.reprContent

/-- Lines 241–288 of `tavily_summary.py`: ends with
`return (text or "").strip()` — no "no content" failure. -/
def call_openai_summary_v1 (ch : SummaryChoice) : Except ExtractErr (List Char) :=
  Except.ok (stripBoth (orEmptyStr (summaryText ch)))

/-! ## Publication sinks -/

/-- `build_issue_title(now)`. -/
def issueTitle (y m d : Nat) : List Char :=
  "Open Science News Digest — ".data ++ isoStr y m d

/-- `write_summary_file`: the written file's content — a `Subject:`
header line plus the markdown. -/
def write_summary_content (markdown : List Char) (y m d : Nat) : List Char :=
  "Subject: Open Science News Digest — ".data ++ isoStr y m d ++
  ['\n', '\n'] ++ markdown

/-- The tail of `tavily_summary.main`: whatever `call_openai_summary`
returned is written to the summary file unconditionally. -/
def tavily_main_writes (ch : SummaryChoice) (y m d : Nat) : Option (List Char) :=
  match call_openai_summary_v1 ch with
  | Except.ok s => some (write_summary_content s y m d)
  | Except.error _ => none

/-- Observable actions of the publishing code. -/
inductive Effect where
  | createIssue (repo token title body : List Char)
  /-- `LOG.info("GITHUB_TOKEN or GITHUB_REPO not set — skipping GitHub publishing")` -/
  | logSkipIssue
  | gdocAppend (docId body : List Char)
  /-- `LOG.info("GDOC_ID or GOOGLE_SERVICE_ACCOUNT_JSON not set — skipping Google Doc append")` -/
  | logSkipGdoc
  | printed (s : List Char)
deriving DecidableEq

/-- The publishing tail of `run_sys_prompt_agent.job_once` once a digest
exists (empty-string env vars are falsy, hence `Option` with `none` for
unset/empty).  When a sink is configured the digest is first sanitized
with today's date; otherwise only a skip message is logged — the digest
is not printed. -/
def job_once_publish (ghToken ghRepo : Option (List Char)) (digest : List Char)
    (y m d : Nat) : List Effect :=
  match ghToken, ghRepo with
  | some tok, some repo =>
    [Effect.createIssue repo tok (issueTitle y m d)
      (sanitize_digest_for_issue digest y m d)]
  | _, _ => [Effect.logSkipIssue]

/-- The publishing tail of `run_sys_prompt_agent_gdoc.main` (the digest
is already sanitized there): with no document configured it logs a skip
message and prints the digest. -/
def gdoc_main_publish (gdocId : Option (List Char)) (creds : Option Unit)
    (digest : List Char) : List Effect :=
  match gdocId, creds with
  | some docId, some _ => [Effect.gdocAppend docId digest]
  | _, _ => [Effect.logSkipGdoc, Effect.printed digest]

/-! ## Claim C9 -/

/-- C9: in the default (non-Google-CSE) path of `web_search`, any two
caller-supplied query strings produce the identical issued request (the
hardcoded open-science query with the caller's `max_results`) and
identical results, for every behaviour of the DuckDuckGo backend. -/
theorem c9_web_search_ignores_query (gcse : List Char → Nat → List WebDoc)
    (ddg : List Char → Nat → DdgOutcome) (q1 q2 : List Char) (n : Nat) :
    web_search false none none gcse ddg q1 n = web_search false none none gcse ddg q2 n := rfl

/-! ## Claim C10 -/

/-- C10: `build_search_context` returns `""` on an empty results list;
for a non-empty list and `max_chars ≥ 3` the output ends in `"\n\n"`,
has length at most `max_chars + 2`, and whenever the untruncated blob
exceeds `max_chars` the blob part is truncated to exactly `max_chars`
characters ending in `"..."`. -/
theorem c10_build_search_context (results : List SearchResult) (maxChars : Nat) :
    build_search_context [] maxChars = [] ∧
    (results ≠ [] → 3 ≤ maxChars →
      ((['\n', '\n'] <:+ build_search_context results maxChars) ∧
       (build_search_context results maxChars).length ≤ maxChars + 2 ∧
       (maxChars < (searchBlob results).length →
         build_search_context results maxChars
           = (searchBlob results).take (maxChars - 3) ++ "...".data ++ ['\n', '\n'] ∧
         (build_search_context results maxChars).length = maxChars + 2))) := by
  constructor
  · rfl
  · intro hne h3
    have hbs : build_search_context results maxChars =
        (if maxChars < (searchBlob results).length
          then pySlice (searchBlob results) ((maxChars : Int) - 3) ++ "...".data
          else searchBlob results) ++ ['\n', '\n'] := by
      simp [build_search_context, hne]
    have hslice : pySlice (searchBlob results) ((maxChars : Int) - 3)
        = (searchBlob results).take (maxChars - 3) := by
      simp only [pySlice]
      rw [if_pos (by omega)]
      congr 1
      omega
    by_cases hlt : maxChars < (searchBlob results).length
    · rw [if_pos hlt] at hbs
      rw [hslice] at hbs
      have hlen : ((searchBlob results).take (maxChars - 3)).length = maxChars - 3 := by
        rw [List.length_take]
        omega
      have hfin : (build_search_context results maxChars).length = maxChars + 2 := by
        rw [hbs]
        simp only [List.length_append, hlen]
        have : ("...".data).length = 3 := rfl
        rw [this]
        simp only [List.length_cons, List.length_nil]
        omega
      refine ⟨by rw [hbs]; exact List.suffix_append _ _, by omega, ?_⟩
      intro _
      exact ⟨hbs, hfin⟩
    · rw [if_neg hlt] at hbs
      refine ⟨by rw [hbs]; exact List.suffix_append _ _, ?_, fun h => absurd h hlt⟩
      rw [hbs]
      simp only [List.length_append, List.length_cons, List.length_nil]
      omega

/-- Concrete instance of C10 (results list `[{title := "t"}]`,
`max_chars = 3`): the blob is truncated to `"..."` and the output is
`"...\n\n"` of length 5. -/
theorem c10_witness :
    build_search_context [⟨['t'], [], []⟩] 3 = "...".data ++ ['\n', '\n'] ∧
    (build_search_context [⟨['t'], [], []⟩] 3).length = 3 + 2 := by
  have h := ((c10_build_search_context [⟨['t'], [], []⟩] 3).2 (by decide)
    (by omega)).2.2 (by decide)
  exact ⟨by rw [h.1]; decide, h.2⟩

/-! ## Claim C8 -/

/-- C8 counterexample: with no GitHub token/repo configured,
`job_once` only logs a skip message; the digest (here `"hi"`) is not
printed (no `printed` effect occurs), contradicting "the digest text is
still surfaced to the user (e.g., printed)". -/
theorem c8_counterexample :
    job_once_publish none none ['h', 'i'] 2024 6 10 = [Effect.logSkipIssue] ∧
    Effect.printed ['h', 'i'] ∉ job_once_publish none none ['h', 'i'] 2024 6 10 := by
  exact ⟨rfl, by decide⟩

/-- C8 amended: with no sink configured both runs still succeed (they
reduce to pure effect traces with no exception path) and skip
publication, but only the Google-Doc script prints the digest;
`job_once` merely logs a skip message and discards the digest text. -/
theorem c8_no_sink_behaviour (digest : List Char) (y m d : Nat)
    (docId : Option (List Char)) (creds : Option Unit) :
    job_once_publish none none digest y m d = [Effect.logSkipIssue] ∧
    (∀ s, Effect.printed s ∉ job_once_publish none none digest y m d) ∧
    (∀ r t ti b, Effect.createIssue r t ti b ∉ job_once_publish none none digest y m d) ∧
    gdoc_main_publish none creds digest = [Effect.logSkipGdoc, Effect.printed digest] ∧
    gdoc_main_publish docId none digest = [Effect.logSkipGdoc, Effect.printed digest] := by
    refine ⟨rfl, ?_, ?_, rfl, ?_⟩
    · intro s hs
      simp [job_once_publish] at hs
    · intro r t ti b hb
      simp [job_once_publish] at hb
    · cases docId <;> rfl

/-! ## Claim C3 -/

/-- A probe "yields empty or absent text": it raised, returned `None`,
or returned a whitespace-only string. -/
def probeBlank : Except Unit (Option (List Char)) → Prop
  | Except.error _ => True
  | Except.ok none => True
  | Except.ok (some s) => stripBoth s = []

/-- Every extraction strategy of `_extract_text_from_choice` yields
empty or absent text on this choice. -/
def choiceAllBlank (ch : Choice) : Prop :=
  probeBlank ch.subMessageContent ∧
  (∀ m, ch.attrMessage = Except.ok (some m) →
    probeBlank m.subContent ∧ probeBlank m.attrContent) ∧
  (∀ v, ch.dictMessageContent = some v → probeBlank (Except.ok v)) ∧
  probeBlank ch.subText ∧
  probeBlank (Except.ok ch.attrText)

theorem stripBoth_nil : stripBoth [] = [] := rfl

theorem probeBlank_ok_strip {v : Option (List Char)}
    (h : probeBlank (Except.ok v)) : stripBoth (orEmptyStr v) = [] := by
  cases v with
  | none => exact stripBoth_nil
  | some s => exact h

theorem extractFallback_blank (ch : Choice) (h : choiceAllBlank ch) :
    stripBoth (orEmptyStr (extractFallback ch)) = [] := by
  obtain ⟨-, -, h3, h4, h5⟩ := h
  unfold extractFallback
  cases hd : ch.dictMessageContent with
  | some v => exact probeBlank_ok_strip (h3 v hd)
  | none =>
    cases ht : ch.subText with
    | ok v =>
      rw [ht] at h4
      exact probeBlank_ok_strip h4
    | error e => exact probeBlank_ok_strip h5

theorem extract_text_blank (ch : Choice) (h : choiceAllBlank ch) :
    stripBoth (orEmptyStr (_extract_text_from_choice ch)) = [] := by
  have h1 := h.1
  have h2 := h.2.1
  cases hc : ch.subMessageContent with
  | ok v =>
    rw [hc] at h1
    simp only [_extract_text_from_choice, hc]
    exact probeBlank_ok_strip h1
  | error e =>
    cases ha : ch.attrMessage with
    | ok om =>
      cases om with
      | some m =>
        obtain ⟨hm1, hm2⟩ := h2 m ha
        cases hs : m.subContent with
        | ok v =>
          rw [hs] at hm1
          simp only [_extract_text_from_choice, hc, ha, hs]
          exact probeBlank_ok_strip hm1
        | error e2 =>
          cases hat : m.attrContent with
          | ok v =>
            rw [hat] at hm2
            simp only [_extract_text_from_choice, hc, ha, hs, hat]
            exact probeBlank_ok_strip hm2
          | error e3 =>
            simp only [_extract_text_from_choice, hc, ha, hs, hat]
            exact extractFallback_blank ch h
      | none =>
        simp only [_extract_text_from_choice, hc, ha]
        exact extractFallback_blank ch h
    | error e2 =>
      simp only [_extract_text_from_choice, hc, ha]
      exact extractFallback_blank ch h

/-- C3 (amended): in the v1 path of
`run_sys_prompt_agent.call_openai_system`, a completion response whose
strategies all yield empty or absent text produces the
"no content" error — an empty string is never returned from that path.
(The claim as frozen also covered `tavily_summary.call_openai_summary`,
which instead returns the empty string; see the counterexample.) -/
theorem c3_sys_v1_no_content (ch : Choice) (h : choiceAllBlank ch) :
    call_openai_system_v1 ch = Except.error ExtractErr.noContent := by
  unfold call_openai_system_v1
  rw [extract_text_blank ch h]
  rfl

/-- Concrete instance of C3 (amended): a choice on which every probe
raises or yields `None`. -/
theorem c3_witness :
    call_openai_system_v1
      ⟨Except.error (), Except.ok none, none, Except.error (), none⟩
      = Except.error ExtractErr.noContent := by
  exact c3_sys_v1_no_content _
    ⟨trivial, fun m hm => by simp at hm, fun v hv => by simp at hv, trivial, trivial⟩

/-- The all-empty summary-side choice: not a dict, `message` attribute
`None`, `text` attribute `None`, no `content="..."` in `str(choice)`. -/
def summaryChoiceAllEmpty : SummaryChoice :=
  ⟨false, none, Except.ok none, none, Except.ok none, none⟩

/-- C3 counterexample: `tavily_summary.call_openai_summary`'s v1 path
returns the *empty string* (not a "no content" error) when every
strategy yields empty/absent text, and `main` then writes the summary
file anyway — the file consists of the `Subject:` header with an empty
digest body.  This refutes the claim for the summary-file sink. -/
theorem c3_counterexample :
    call_openai_summary_v1 summaryChoiceAllEmpty = Except.ok [] ∧
    tavily_main_writes summaryChoiceAllEmpty 2024 6 10
      = some (write_summary_content [] 2024 6 10) := ⟨rfl, rfl⟩

/-! ## Claims C4–C6: retry behaviour -/

/-- The sleeps performed by `n` consecutive connection failures starting
from backoff `b`: `[b, 2b, 4b, …, 2^(n-1) b]`. -/
def sleepsUpTo (b : Rat) (n : Nat) : List Rat :=
  (List.range n).map (fun i => 2 ^ i * b)

theorem sleepsUpTo_zero (b : Rat) : sleepsUpTo b 0 = [] := rfl

theorem sleepsUpTo_succ (b : Rat) (n : Nat) :
    sleepsUpTo b (n + 1) = b :: sleepsUpTo (2 * b) n := by
  simp only [sleepsUpTo, List.range_succ_eq_map, List.map_cons, List.map_map]
  refine congrArg₂ List.cons (by ring) ?_
  refine List.map_congr_left ?_
  intro i _
  simp only [Function.comp_apply]
  rw [pow_succ]
  ring

/-- Walking `n` consecutive connection failures from attempt `k`. -/
theorem tavilyGo_conn_steps (oracle : Nat → ReqOutcome) (total : Nat)
    (f : Nat → List Char) :
    ∀ (n rem k : Nat) (b : Rat) (last : Option (List Char)) (sleeps : List Rat),
      n ≤ rem →
      (∀ j, k ≤ j → j < k + n → oracle j = ReqOutcome.connErr (f j)) →
      tavilyGo oracle total rem k b last sleeps
        = tavilyGo oracle total (rem - n) (k + n) (2 ^ n * b)
            (if n = 0 then last else some (f (k + n - 1)))
            (sleeps ++ sleepsUpTo b n) := by
  intro n
  induction n with
  | zero =>
    intro rem k b last sleeps _ _
    simp [sleepsUpTo_zero]
  | succ n ih =>
    intro rem k b last sleeps hrem hconn
    obtain ⟨rem', rfl⟩ : ∃ r, rem = r + 1 := by
      cases rem with
      | zero => omega
      | succ r => exact ⟨r, rfl⟩
    have hk : oracle k = ReqOutcome.connErr (f k) := hconn k (Nat.le_refl _) (by omega)
    have hstep : tavilyGo oracle total (rem' + 1) k b last sleeps
        = tavilyGo oracle total rem' (k + 1) (2 * b) (some (f k)) (sleeps ++ [b]) := by
      simp only [tavilyGo, hk]
    rw [hstep, ih rem' (k + 1) (2 * b) (some (f k)) (sleeps ++ [b]) (by omega)
      (fun j hj1 hj2 => hconn j (by omega) (by omega))]
    have e1 : rem' - n = rem' + 1 - (n + 1) := by omega
    have e2 : k + 1 + n = k + (n + 1) := by omega
    have e3 : (2 : Rat) ^ n * (2 * b) = 2 ^ (n + 1) * b := by ring
    have e4 : (if n = 0 then some (f k) else some (f (k + (n + 1) - 1)))
        = (if n + 1 = 0 then last else some (f (k + (n + 1) - 1))) := by
      cases n with
      | zero => norm_num
      | succ n' => norm_num
    have e5 : sleeps ++ [b] ++ sleepsUpTo (2 * b) n = sleeps ++ sleepsUpTo b (n + 1) := by
      rw [sleepsUpTo_succ, List.append_assoc]
      rfl
    rw [e1, e2, e3, e4, e5]

/-- C4: in the direct-HTTP search path, only connection-level failures
are retried, with sleeps `b, 2b, 4b, …` (exponential backoff doubling
from the configurable base); a non-connection error at any attempt
propagates immediately with no further attempt; success stops the loop;
and only after all `attempts` attempts fail with connection errors does
the loop end, in the exhaustion error. -/
theorem c4_retry_policy (oracle : Nat → ReqOutcome) (attempts : Nat) (b : Rat) :
    (∀ (j : Nat) (e : List Char) (f : Nat → List Char), 1 ≤ j → j ≤ attempts →
      (∀ i, 1 ≤ i → i < j → oracle i = ReqOutcome.connErr (f i)) →
      oracle j = ReqOutcome.otherErr e →
      tavily_search_http oracle attempts b
        = (Except.error (TavilyErr.http e), sleepsUpTo b (j - 1))) ∧
    (∀ (j : Nat) (items : List SearchResult) (f : Nat → List Char), 1 ≤ j → j ≤ attempts →
      (∀ i, 1 ≤ i → i < j → oracle i = ReqOutcome.connErr (f i)) →
      oracle j = ReqOutcome.ok items →
      tavily_search_http oracle attempts b = (Except.ok items, sleepsUpTo b (j - 1))) ∧
    (∀ (f : Nat → List Char), 1 ≤ attempts →
      (∀ i, 1 ≤ i → i ≤ attempts → oracle i = ReqOutcome.connErr (f i)) →
      tavily_search_http oracle attempts b
        = (Except.error (TavilyErr.exhausted attempts (some (f attempts))),
           sleepsUpTo b attempts)) := by
  refine ⟨?_, ?_, ?_⟩
  · intro j e f hj1 hj2 hconn hj
    unfold tavily_search_http
    rw [tavilyGo_conn_steps oracle attempts f (j - 1) attempts 1 b none []
      (by omega) (fun i hi1 hi2 => hconn i (by omega) (by omega))]
    obtain ⟨r, hr⟩ : ∃ r, attempts - (j - 1) = r + 1 := ⟨attempts - j, by omega⟩
    rw [hr, show 1 + (j - 1) = j from by omega]
    simp only [tavilyGo, hj, List.nil_append]
  · intro j items f hj1 hj2 hconn hj
    unfold tavily_search_http
    rw [tavilyGo_conn_steps oracle attempts f (j - 1) attempts 1 b none []
      (by omega) (fun i hi1 hi2 => hconn i (by omega) (by omega))]
    obtain ⟨r, hr⟩ : ∃ r, attempts - (j - 1) = r + 1 := ⟨attempts - j, by omega⟩
    rw [hr, show 1 + (j - 1) = j from by omega]
    simp only [tavilyGo, hj, List.nil_append]
  · intro f h1 hconn
    unfold tavily_search_http
    rw [tavilyGo_conn_steps oracle attempts f attempts attempts 1 b none []
      (Nat.le_refl _) (fun i hi1 hi2 => hconn i (by omega) (by omega))]
    rw [Nat.sub_self]
    simp only [tavilyGo, List.nil_append]
    rw [if_neg (by omega)]
    rw [show 1 + attempts - 1 = attempts from by omega]

/-- Concrete instance of C4: one connection failure then an HTTP error on
attempt 2 stops the loop immediately with the HTTP error, having slept
only the single base backoff. -/
theorem c4_witness :
    tavily_search_http
      (fun k => if k = 1 then ReqOutcome.connErr ['c'] else ReqOutcome.otherErr ['b'])
      3 1
      = (Except.error (TavilyErr.http ['b']), [1]) := by
  have h := (c4_retry_policy
    (fun k => if k = 1 then ReqOutcome.connErr ['c'] else ReqOutcome.otherErr ['b'])
    3 1).1 2 ['b'] (fun _ => ['c']) (by omega) (by omega)
    (by intro i hi1 hi2; have : i = 1 := by omega
        subst this; rfl)
    (by rfl)
  rw [h]
  norm_num [sleepsUpTo]
  rw [show List.range 1 = [0] from rfl]
  norm_num

theorem tavilyGo_zero_rem (oracle : Nat → ReqOutcome) (total k : Nat) (b : Rat)
    (last : Option (List Char)) (sleeps : List Rat) :
    tavilyGo oracle total 0 k b last sleeps
      = (Except.error (TavilyErr.exhausted total last), sleeps) := rfl

theorem tavilyGo_conn_step (oracle : Nat → ReqOutcome) (total rem k : Nat) (b : Rat)
    (last : Option (List Char)) (sleeps : List Rat) (e : List Char)
    (h : oracle k = ReqOutcome.connErr e) :
    tavilyGo oracle total (rem + 1) k b last sleeps
      = tavilyGo oracle total rem (k + 1) (2 * b) (some e) (sleeps ++ [b]) := by
  simp only [tavilyGo, h]

/-- C5 counterexample: with `attempts = 3`, `backoff = 1.0` and three
consecutive connection failures, the loop sleeps `[1, 2, 4]` — three
sleeps for three attempts, i.e. a 4-second sleep happens *after* the
final attempt (before the exhaustion error), contradicting "no sleep
occurs after the final attempt" (which would allow at most 2 sleeps). -/
theorem c5_counterexample :
    (tavily_search_http (fun _ => ReqOutcome.connErr ['x']) 3 1).2 = [1, 2, 4] ∧
    ¬ (tavily_search_http (fun _ => ReqOutcome.connErr ['x']) 3 1).2.length ≤ 2 := by
  have hrun : tavily_search_http (fun _ => ReqOutcome.connErr ['x']) 3 1
      = (Except.error (TavilyErr.exhausted 3 (some ['x'])), [1, 2, 4]) := by
    unfold tavily_search_http
    rw [tavilyGo_conn_step _ 3 2 1 1 none [] ['x'] rfl,
        tavilyGo_conn_step _ 3 1 2 (2 * 1) (some ['x']) ([] ++ [1]) ['x'] rfl,
        tavilyGo_conn_step _ 3 0 3 (2 * (2 * 1)) (some ['x']) ([] ++ [1] ++ [2 * 1]) ['x'] rfl,
        tavilyGo_zero_rem]
    norm_num
  refine ⟨by rw [hrun], by rw [hrun]; norm_num⟩

/-- C5 (amended): with `attempts = 3`, `backoff = 1.0`, three
consecutive connection failures yield the exhaustion error naming
attempt count 3 and the last error; the accumulated sleeps are
`[1, 2, 4]` (total 7 ≥ 1 + 2) — the code also sleeps (4 s) after the
final failed attempt before raising. -/
theorem c5_three_failures (oracle : Nat → ReqOutcome) (e1 e2 e3 : List Char)
    (h1 : oracle 1 = ReqOutcome.connErr e1) (h2 : oracle 2 = ReqOutcome.connErr e2)
    (h3 : oracle 3 = ReqOutcome.connErr e3) :
    tavily_search_http oracle 3 1
      = (Except.error (TavilyErr.exhausted 3 (some e3)), [1, 2, 4]) ∧
    ([(1 : Rat), 2, 4].sum = 7 ∧ (1 : Rat) + 2 ≤ 7) := by
  constructor
  · unfold tavily_search_http
    rw [tavilyGo_conn_step oracle 3 2 1 1 none [] e1 h1,
        tavilyGo_conn_step oracle 3 1 2 (2 * 1) (some e1) ([] ++ [1]) e2 h2,
        tavilyGo_conn_step oracle 3 0 3 (2 * (2 * 1)) (some e2) ([] ++ [1] ++ [2 * 1]) e3 h3,
        tavilyGo_zero_rem]
    norm_num
  · constructor
    · norm_num [List.sum_cons]
    · norm_num

/-- Concrete instance of C5 (amended). -/
theorem c5_witness :
    tavily_search_http (fun _ => ReqOutcome.connErr ['x']) 3 1
      = (Except.error (TavilyErr.exhausted 3 (some ['x'])), [1, 2, 4]) :=
  (c5_three_failures (fun _ => ReqOutcome.connErr ['x']) ['x'] ['x'] ['x'] rfl rfl rfl).1

/-- C6 counterexample: the exhaustion error text for `attempts = 3`,
last error `"boom"` names the attempt count and the last error but does
*not* contain the endpoint (the default Tavily URL), contradicting "an
error whose description names the endpoint". -/
theorem c6_counterexample :
    ¬ (defaultTavilyUrl <:+: exhaustMsg 3 ['b', 'o', 'o', 'm']) ∧
    (natToChars 3 <:+: exhaustMsg 3 ['b', 'o', 'o', 'm']) ∧
    (['b', 'o', 'o', 'm'] <:+: exhaustMsg 3 ['b', 'o', 'o', 'm']) := by
  refine ⟨?_, ?_, ?_⟩ <;> decide

/-- C6 (amended): on retry exhaustion the error description is exactly
`"Tavily API connection failed after {attempts} attempts: {last}"` — it
names the attempt count and the last underlying error (but no endpoint
URL appears in the template). -/
theorem c6_exhaust_msg_content (n : Nat) (last : List Char) :
    exhaustMsg n last
      = "Tavily API connection failed after ".data ++ natToChars n ++
        " attempts: ".data ++ last ∧
    (natToChars n <:+: exhaustMsg n last) ∧
    (last <:+: exhaustMsg n last) := by
  refine ⟨by simp [exhaustMsg], ?_, ?_⟩
  · exact ⟨"Tavily API connection failed after ".data, " attempts: ".data ++ last,
      by simp [exhaustMsg]⟩
  · exact ⟨"Tavily API connection failed after ".data ++ natToChars n ++ " attempts: ".data,
      [], by simp [exhaustMsg]⟩

/-! ## Claim C7 -/

theorem fixDateLines_no_date (iso : List Char) :
    ∀ (fuel : Nat) (L : List (List Char)),
      (∀ l ∈ L.take fuel, startsWithDate l = false) →
      fixDateLines iso fuel L = L := by
  intro fuel
  induction fuel with
  | zero =>
    intro L _
    cases L <;> rfl
  | succ fuel ih =>
    intro L h
    cases L with
    | nil => rfl
    | cons l ls =>
      have hl : startsWithDate l = false := h l (by simp)
      simp only [fixDateLines, hl, Bool.false_eq_true, if_false]
      rw [ih ls (fun l' hl' => h l' (by simp [hl']))]

theorem fixDateLines_set (iso : List Char) :
    ∀ (i : Nat) (fuel : Nat) (L : List (List Char)) (hi : i < L.length),
      i < fuel → startsWithDate (L.get ⟨i, hi⟩) = true →
      (∀ j (hj : j < L.length), j < i → startsWithDate (L.get ⟨j, hj⟩) = false) →
      fixDateLines iso fuel L = L.set i (rewriteDateLine iso (L.get ⟨i, hi⟩)) := by
  intro i
  induction i with
  | zero =>
    intro fuel L hi hfuel hd _
    cases L with
    | nil => simp at hi
    | cons l ls =>
      obtain ⟨f, rfl⟩ : ∃ f, fuel = f + 1 := by
        cases fuel with
        | zero => omega
        | succ f => exact ⟨f, rfl⟩
      simp only [List.get] at hd
      simp only [fixDateLines, hd, if_true, List.set, List.get]
  | succ i ih =>
    intro fuel L hi hfuel hd hprev
    cases L with
    | nil => simp at hi
    | cons l ls =>
      obtain ⟨f, rfl⟩ : ∃ f, fuel = f + 1 := by
        cases fuel with
        | zero => omega
        | succ f => exact ⟨f, rfl⟩
      have hl : startsWithDate l = false := by
        have := hprev 0 (by simp) (by omega)
        simpa using this
      simp only [List.length_cons] at hi
      simp only [fixDateLines, hl, Bool.false_eq_true, if_false, List.set]
      have hget : (l :: ls).get ⟨i + 1, by simpa using hi⟩
          = ls.get ⟨i, by omega⟩ := rfl
      rw [hget]
      rw [ih f ls (by omega) (by omega) (by simpa using hd)
        (fun j hj hji => by
          have := hprev (j + 1) (by simpa using hj) (by omega)
          simpa using this)]

/-- C7: within `sanitize_digest_for_issue` (last conjunct), the `Date:`
rewrite scans only the first six lines: if none of them starts with
`Date:` the line list is unchanged; otherwise exactly the first such
line (index `i < 6`) is replaced — with `Date: {iso}` when its candidate
value parses as an ISO calendar date and `Date: unknown` otherwise, per
`rewriteDateLine` — and all other lines are untouched (`List.set`). -/
theorem c7_date_line_scan (iso : List Char) (L : List (List Char))
    (x : List Char) (y m d : Nat) :
    ((∀ l ∈ L.take 6, startsWithDate l = false) → fixDateLines iso 6 L = L) ∧
    (∀ (i : Nat) (hi : i < L.length), i < 6 → startsWithDate (L.get ⟨i, hi⟩) = true →
      (∀ j (hj : j < L.length), j < i → startsWithDate (L.get ⟨j, hj⟩) = false) →
      fixDateLines iso 6 L = L.set i (rewriteDateLine iso (L.get ⟨i, hi⟩))) ∧
    sanitize_digest_for_issue x y m d
      = joinLines (fixDateLines (isoStr y m d) 6 (splitlines (subHeading (isoStr y m d) x))) := by
  refine ⟨fixDateLines_no_date iso 6 L, ?_, rfl⟩
  intro i hi h6 hd hprev
  exact fixDateLines_set iso i 6 L hi h6 hd hprev

/-- Concrete instance of C7, the spec's own example: on
`"Date: not-a-date\nrest"` the first line is rewritten to
`"Date: unknown"` and the rest is untouched. -/
theorem c7_witness :
    fixDateLines (isoStr 2024 6 10) 6 (splitlines "Date: not-a-date\nrest".data)
      = [dateUnknownLine, ['r', 'e', 's', 't']] ∧
    sanitize_digest_for_issue "Date: not-a-date\nrest".data 2024 6 10
      = "Date: unknown\nrest".data := by
  have h := (c7_date_line_scan (isoStr 2024 6 10)
      (splitlines "Date: not-a-date\nrest".data)
      "Date: not-a-date\nrest".data 2024 6 10)
  have h2 := h.2.1 0 (by decide) (by decide) (by decide)
    (fun j hj hj0 => absurd hj0 (Nat.not_lt_zero j))
  have h3 := h.2.2
  constructor
  · rw [h2]
    decide
  · have hsub : subHeading (isoStr 2024 6 10) "Date: not-a-date\nrest".data
        = "Date: not-a-date\nrest".data := by decide
    rw [h3, hsub, h2]
    decide

/-! ## Claim C2 -/

/-- No position of `x` matches the heading pattern (computable, checked
position by position exactly as the `re.sub` scan does). -/
def noHeadingB : List Char → Bool
  | [] => true
  | c :: s => !(runPat headingToks (c :: s)).isSome && noHeadingB s

theorem subHeading_id_of_noHeading (iso : List Char) :
    ∀ (x : List Char), noHeadingB x = true → subHeading iso x = x := by
  intro x
  induction x with
  | nil => intro _; rfl
  | cons c rest ih =>
    intro h
    simp only [noHeadingB, Bool.and_eq_true] at h
    obtain ⟨h1, h2⟩ := h
    have hnone : runPat headingToks (c :: rest) = none := by
      cases hm : runPat headingToks (c :: rest) with
      | none => rfl
      | some a => rw [hm] at h1; simp at h1
    rw [subHeading_cons_none iso c rest hnone, ih h2]

/-- C2 counterexample: `"hello\n"` contains no heading pattern and no
`Date:` line, yet `sanitize_digest_for_issue` does not return it
unchanged — the trailing newline is dropped (by
`"\n".join(body.splitlines())`), contradicting "all other characters of
the body, including line endings, trailing newlines, … are returned
unchanged". -/
theorem c2_counterexample :
    noHeadingB "hello\n".data = true ∧
    (∀ l ∈ (splitlines "hello\n".data).take 6, startsWithDate l = false) ∧
    sanitize_digest_for_issue "hello\n".data 2024 6 10 = "hello".data ∧
    sanitize_digest_for_issue "hello\n".data 2024 6 10 ≠ "hello\n".data := by
  refine ⟨by decide, by decide, by decide, by decide⟩

/-! The frame theorem `c2_frame` for this claim needs the `OutRel`/`LN`
machinery developed for claim C1 below, and is stated after it. -/

/-! ## Claim C1: idempotence of sanitization.

The proof needs: (1) the replacement text re-matches the pattern
consuming exactly itself (`runPat_headingRepl`); (2) a simulation
argument showing that `re.sub` output contains no matches other than the
replacements (`OutRel`, `runPat_none_outRel`, `Sane`); (3) transport of
the no-new-match property across line normalization (`LN`) and across
the `Date:` line edit; (4) round-trip facts for `splitlines`/`joinLines`
and idempotence of the `Date:` rewrite. -/

theorem digitChar10_facts (n : Nat) :
    isAsciiDigit (digitChar10 n) = true ∧ isPySpace (digitChar10 n) = false ∧
    isLineBreakCh (digitChar10 n) = false ∧ digitChar10 n ≠ 'O' ∧
    digitChar10 n ≠ 'D' ∧ digitVal (digitChar10 n) = n % 10 := by
  have h : n % 10 < 10 := Nat.mod_lt _ (by norm_num)
  unfold digitChar10 digitVal
  generalize n % 10 = k at h ⊢
  interval_cases k <;> exact ⟨by decide, by decide, by decide, by decide, by decide, by decide⟩

theorem isAsciiDigit_digitChar10 (n : Nat) : isAsciiDigit (digitChar10 n) = true :=
  (digitChar10_facts n).1

theorem isPySpace_digitChar10 (n : Nat) : isPySpace (digitChar10 n) = false :=
  (digitChar10_facts n).2.1

theorem isLineBreakCh_digitChar10 (n : Nat) : isLineBreakCh (digitChar10 n) = false :=
  (digitChar10_facts n).2.2.1

theorem digitChar10_ne_O (n : Nat) : digitChar10 n ≠ 'O' :=
  (digitChar10_facts n).2.2.2.1

theorem digitVal_digitChar10 (n : Nat) : digitVal (digitChar10 n) = n % 10 :=
  (digitChar10_facts n).2.2.2.2.2

theorem validDate_bounds (y m d : Nat) (h : validDate y m d = true) :
    1 ≤ y ∧ y ≤ 9999 ∧ 1 ≤ m ∧ m ≤ 12 ∧ 1 ≤ d ∧ d ≤ 31 := by
  simp only [validDate, Bool.and_eq_true, decide_eq_true_eq] at h
  obtain ⟨⟨⟨⟨⟨h1, h2⟩, h3⟩, h4⟩, h5⟩, h6⟩ := h
  refine ⟨h1, h2, h3, h4, h5, ?_⟩
  have : daysInMonth y m ≤ 31 := by
    unfold daysInMonth
    split
    · split <;> omega
    · split <;> omega
  omega

/-- `date.fromisoformat(date(y,m,d).isoformat()) = date(y,m,d)`. -/
theorem parseIsoDate_isoStr (y m d : Nat) (hv : validDate y m d = true) :
    parseIsoDate (isoStr y m d) = some (y, m, d) := by
  obtain ⟨hy1, hy2, hm1, hm2, hd1, hd2⟩ := validDate_bounds y m d hv
  simp only [isoStr, parseIsoDate, isAsciiDigit_digitChar10, Bool.and_self, if_true,
    digitVal_digitChar10]
  have ey : y / 1000 % 10 * 1000 + y / 100 % 10 * 100 + y / 10 % 10 * 10 + y % 10 = y := by
    omega
  have em : m / 10 % 10 * 10 + m % 10 = m := by omega
  have ed : d / 10 % 10 * 10 + d % 10 = d := by omega
  rw [ey, em, ed, hv]
  simp

theorem isPySpace_facts :
    isPySpace ' ' = true ∧ isPySpace '—' = false ∧ isPySpace '-' = false ∧
    isPySpace 'O' = false ∧ isPySpace 'D' = false := by
  refine ⟨by decide, by decide, by decide, by decide, by decide⟩

/-- The replacement `f"Open Science News Digest — {iso}"` (for the
canonical ISO date) matches the heading pattern, consuming exactly
itself. -/
theorem runPat_headingRepl (y m d : Nat) (t : List Char) :
    runPat headingToks (headingRepl (isoStr y m d) ++ t) = some t := by
  simp only [headingRepl, headingLit, isoStr, headingToks, List.map_cons, List.map_nil,
    List.cons_append, List.nil_append]
  simp only [runPat, List.dropWhile]
  norm_num [isPySpace_facts.1, isPySpace_facts.2.1, isPySpace_digitChar10,
    isAsciiDigit_digitChar10]
  simp [runPat, isAsciiDigit_digitChar10]

/-- `OutRel iso s t` relates an input `s` of the `re.sub` scan to its
output `t`: skipped characters are copied, matches are replaced by the
replacement text. -/
inductive OutRel (iso : List Char) : List Char → List Char → Prop where
  | nil : OutRel iso [] []
  | cons (c : Char) (s t : List Char) :
      runPat headingToks (c :: s) = none → OutRel iso s t → OutRel iso (c :: s) (c :: t)
  | repl (s after t : List Char) :
      runPat headingToks s = some after → OutRel iso after t →
      OutRel iso s (headingRepl iso ++ t)

theorem outRel_subHeading_aux (iso : List Char) :
    ∀ (n : Nat) (s : List Char), s.length ≤ n → OutRel iso s (subHeading iso s) := by
  intro n
  induction n with
  | zero =>
    intro s hs
    have : s = [] := List.length_eq_zero.mp (Nat.le_zero.mp hs)
    subst this
    exact OutRel.nil
  | succ n ih =>
    intro s hs
    cases s with
    | nil => exact OutRel.nil
    | cons c rest =>
      simp only [List.length_cons] at hs
      cases hm : runPat headingToks (c :: rest) with
      | some after =>
        rw [subHeading_match iso c rest after hm]
        exact OutRel.repl _ _ _ hm (ih after (by
          have := runPat_heading_lt c rest after hm
          omega))
      | none =>
        rw [subHeading_cons_none iso c rest hm]
        exact OutRel.cons c rest _ hm (ih rest (by omega))

theorem outRel_subHeading (iso : List Char) (s : List Char) :
    OutRel iso s (subHeading iso s) :=
  outRel_subHeading_aux iso s.length s (Nat.le_refl _)

/-- A successful full-pattern match starts at a literal `O`. -/
theorem runPat_heading_some_O (s a : List Char)
    (h : runPat headingToks s = some a) : ∃ s', s = 'O' :: s' := by
  cases s with
  | nil =>
    rw [show headingToks = PTok.lit 'O' :: headingToks.tail from rfl] at h
    simp [runPat] at h
  | cons c rest =>
    rw [show headingToks = PTok.lit 'O' :: headingToks.tail from rfl] at h
    simp only [runPat] at h
    by_cases hc : c = 'O'
    · exact ⟨rest, by rw [hc]⟩
    · rw [if_neg hc] at h
      exact absurd h (by simp)

theorem runPat_heading_ne_O (c : Char) (u : List Char) (h : c ≠ 'O') :
    runPat headingToks (c :: u) = none := by
  rw [show headingToks = PTok.lit 'O' :: headingToks.tail from rfl]
  simp only [runPat]
  rw [if_neg h]

/-- The replacement text starts with `O`. -/
theorem headingRepl_cons (iso t : List Char) :
    ∃ u, headingRepl iso ++ t = 'O' :: u := ⟨_, rfl⟩

theorem outRel_dropWhile (iso : List Char) :
    ∀ (s t : List Char), OutRel iso s t →
      OutRel iso (s.dropWhile isPySpace) (t.dropWhile isPySpace) := by
  intro s t h
  induction h with
  | nil => exact OutRel.nil
  | cons c s' t' hnone hrel ih =>
    by_cases hc : isPySpace c = true
    · simpa [List.dropWhile, hc] using ih
    · simp only [List.dropWhile, hc]
      exact OutRel.cons c s' t' hnone hrel
  | repl s₀ after t₀ hsome hrel ih =>
    obtain ⟨s', rfl⟩ := runPat_heading_some_O s₀ after hsome
    have hO : isPySpace 'O' = false := by decide
    rw [show ('O' :: s').dropWhile isPySpace = 'O' :: s' from by simp [List.dropWhile, hO]]
    rw [show (headingRepl iso ++ t₀).dropWhile isPySpace = headingRepl iso ++ t₀ from by
      rw [show headingRepl iso ++ t₀
          = 'O' :: ((headingRepl iso).tail ++ t₀) from rfl]
      simp [List.dropWhile, hO]]
    exact OutRel.repl _ _ _ hsome hrel

/-- A pattern state whose first effective token rejects the character
`O` (so matching it against text starting with `O` fails). -/
def headRejectsO : List PTok → Bool
  | PTok.lit c :: _ => c != 'O'
  | PTok.dash :: _ => true
  | PTok.digit :: _ => true
  | PTok.spaces :: PTok.dash :: _ => true
  | PTok.spaces :: PTok.digit :: _ => true
  | _ => false

theorem headRejectsO_none (π : List PTok) (h : headRejectsO π = true) (u : List Char) :
    runPat π ('O' :: u) = none := by
  have hO : isPySpace 'O' = false := by decide
  match π, h with
  | PTok.lit c :: ps, h =>
    simp only [headRejectsO, bne_iff_ne, ne_eq, decide_eq_true_eq] at h
    simp only [runPat]
    rw [if_neg (fun hh => h hh.symm)]
  | PTok.dash :: ps, _ =>
    simp only [runPat]
    rw [if_neg (by decide)]
  | PTok.digit :: ps, _ =>
    simp only [runPat]
    rw [if_neg (by decide)]
  | PTok.spaces :: PTok.dash :: ps, _ =>
    simp only [runPat, List.dropWhile, hO]
    rw [if_neg (by decide)]
  | PTok.spaces :: PTok.digit :: ps, _ =>
    simp only [runPat, List.dropWhile, hO]
    rw [if_neg (by decide)]

/-- Every suffix of the heading pattern is the full pattern, the empty
state, or a state that rejects `O`-headed text. -/
theorem headingToks_tails_check :
    ∀ π ∈ headingToks.tails, π = headingToks ∨ π = [] ∨ headRejectsO π = true := by
  decide

theorem proper_suffix_rejects_O (π : List PTok) (hsuf : π <:+ headingToks)
    (hne : π ≠ headingToks) (hnil : π ≠ []) (u : List Char) :
    runPat π ('O' :: u) = none := by
  have hmem : π ∈ headingToks.tails := (List.mem_tails π headingToks).mpr hsuf
  rcases headingToks_tails_check π hmem with h | h | h
  · exact absurd h hne
  · exact absurd h hnil
  · exact headRejectsO_none π h u

/-- Key simulation lemma: a pattern state (any suffix of the heading
pattern) that fails on the input also fails on the `re.sub` output. -/
theorem runPat_none_outRel (iso : List Char) :
    ∀ (π : List PTok), π <:+ headingToks →
      ∀ (s t : List Char), OutRel iso s t → runPat π s = none → runPat π t = none := by
  intro π
  induction π with
  | nil =>
    intro _ s t _ hnone
    simp [runPat] at hnone
  | cons p π' ih =>
    intro hsuf s t hrel hnone
    have hsuf' : π' <:+ headingToks := (List.suffix_cons p π').trans hsuf
    cases hrel with
    | nil => exact hnone
    | cons c s' t' hcnone hrel' =>
      cases p with
      | lit a =>
        simp only [runPat] at hnone ⊢
        by_cases hca : c = a
        · rw [if_pos hca] at hnone ⊢
          exact ih hsuf' s' t' hrel' hnone
        · rw [if_neg hca]
      | dash =>
        simp only [runPat] at hnone ⊢
        by_cases hca : (c = '—' || c = '-') = true
        · rw [if_pos hca] at hnone ⊢
          exact ih hsuf' s' t' hrel' hnone
        · rw [if_neg hca]
      | digit =>
        simp only [runPat] at hnone ⊢
        by_cases hca : isAsciiDigit c = true
        · rw [if_pos hca] at hnone ⊢
          exact ih hsuf' s' t' hrel' hnone
        · rw [if_neg hca]
      | spaces =>
        simp only [runPat] at hnone ⊢
        exact ih hsuf' _ _
          (outRel_dropWhile iso _ _ (OutRel.cons c s' t' hcnone hrel')) hnone
    | repl s₀ after t₀ hsome hrel' =>
      by_cases hfull : (p :: π') = headingToks
      · rw [hfull] at hnone
        rw [hnone] at hsome
        cases hsome
      · obtain ⟨u, hu⟩ := headingRepl_cons iso t₀
        rw [hu]
        exact proper_suffix_rejects_O (p :: π') hsuf hfull (by simp) u

/-- Texts on which the heading substitution acts as the identity:
built from match-free characters and aligned replacement blocks. -/
inductive Sane (iso : List Char) : List Char → Prop where
  | nil : Sane iso []
  | cons (c : Char) (s : List Char) :
      runPat headingToks (c :: s) = none → Sane iso s → Sane iso (c :: s)
  | repl (t : List Char) : Sane iso t → Sane iso (headingRepl iso ++ t)

theorem sane_fix (iso : List Char)
    (hrepl : ∀ t, runPat headingToks (headingRepl iso ++ t) = some t) :
    ∀ s, Sane iso s → subHeading iso s = s := by
  intro s h
  induction h with
  | nil => rfl
  | cons c s' hnone _ ih => rw [subHeading_cons_none iso c s' hnone, ih]
  | repl t _ ih =>
    have hm := hrepl t
    have he : headingRepl iso ++ t = 'O' :: ((headingRepl iso).tail ++ t) := rfl
    rw [he] at hm
    rw [he, subHeading_match iso 'O' _ t hm, ih, ← he]

theorem outRel_sane (iso : List Char) :
    ∀ s t, OutRel iso s t → Sane iso t := by
  intro s t h
  induction h with
  | nil => exact Sane.nil
  | cons c s' t' hnone hrel ih =>
    exact Sane.cons c t'
      (runPat_none_outRel iso headingToks (List.suffix_refl _) (c :: s') (c :: t')
        (OutRel.cons c s' t' hnone hrel) hnone) ih
  | repl s₀ after t₀ hsome hrel ih => exact Sane.repl t₀ ih

/-- `subHeading` output is sane. -/
theorem sane_subHeading (iso : List Char) (x : List Char) :
    Sane iso (subHeading iso x) :=
  outRel_sane iso x (subHeading iso x) (outRel_subHeading iso x)

theorem splitlines_single (c : Char) :
    splitlines [c] = if isLineBreakCh c then [[]] else [[c]] := rfl

theorem splitlines_crlf (rest : List Char) :
    splitlines ('\r' :: '\n' :: rest) = [] :: splitlines rest := by
  simp [splitlines]

theorem splitlines_two_break (c1 c2 : Char) (rest : List Char)
    (h : (c1 = '\r' && c2 = '\n') = false) (hb : isLineBreakCh c1 = true) :
    splitlines (c1 :: c2 :: rest) = [] :: splitlines (c2 :: rest) := by
  simp only [splitlines, h, Bool.false_eq_true, if_false, hb, if_true]

theorem splitlines_two_nobreak (c1 c2 : Char) (rest : List Char)
    (hb : isLineBreakCh c1 = false) :
    splitlines (c1 :: c2 :: rest) = consLine c1 (splitlines (c2 :: rest)) := by
  have h : (c1 = '\r' && c2 = '\n') = false := by
    have : c1 ≠ '\r' := fun hh => by rw [hh] at hb; exact absurd hb (by decide)
    simp [this]
  simp only [splitlines, h, Bool.false_eq_true, if_false, hb]

theorem splitlines_ne_nil (s : List Char) (hs : s ≠ []) : splitlines s ≠ [] := by
  match s with
  | [] => exact absurd rfl hs
  | [c] =>
    rw [splitlines_single]
    split <;> simp
  | c1 :: c2 :: rest =>
    by_cases hb : isLineBreakCh c1 = true
    · by_cases hcr : (c1 = '\r' && c2 = '\n') = true
      · simp only [Bool.and_eq_true, decide_eq_true_eq] at hcr
        obtain ⟨rfl, rfl⟩ := hcr
        rw [splitlines_crlf]
        simp
      · rw [splitlines_two_break c1 c2 rest (by simpa using hcr) hb]
        simp
    · rw [splitlines_two_nobreak c1 c2 rest (by simpa using hb)]
      cases splitlines (c2 :: rest) <;> simp [consLine]

theorem joinLines_cons_ne_nil (l : List Char) (ls : List (List Char)) (h : ls ≠ []) :
    joinLines (l :: ls) = l ++ '\n' :: joinLines ls := by
  cases ls with
  | nil => exact absurd rfl h
  | cons l2 ls2 => rfl

theorem joinLines_nil_cons (ls : List (List Char)) (h : ls ≠ []) :
    joinLines ([] :: ls) = '\n' :: joinLines ls := by
  rw [joinLines_cons_ne_nil [] ls h]
  rfl

theorem joinLines_consLine_head (c : Char) (l : List Char) (ls : List (List Char)) :
    joinLines ((c :: l) :: ls) = c :: joinLines (l :: ls) := by
  cases ls with
  | nil => rfl
  | cons l2 ls2 => rfl

/-- `LN s t`: `t` is `s` with every line boundary rewritten to `\n` and
a single trailing boundary removed — the effect of
`"\n".join(s.splitlines())`. -/
inductive LN : List Char → List Char → Prop where
  | nil : LN [] []
  | ch (c : Char) (s t : List Char) : isLineBreakCh c = false → LN s t → LN (c :: s) (c :: t)
  | crlf (s t : List Char) : LN s t → LN ('\r' :: '\n' :: s) ('\n' :: t)
  | brk (c : Char) (s t : List Char) : isLineBreakCh c = true → LN s t → LN (c :: s) ('\n' :: t)
  | trailCrlf : LN ['\r', '\n'] []
  | trailBrk (c : Char) : isLineBreakCh c = true → LN [c] []

theorem ln_join_split_aux :
    ∀ (n : Nat) (s : List Char), s.length ≤ n → LN s (joinLines (splitlines s)) := by
  intro n
  induction n with
  | zero =>
    intro s hs
    have : s = [] := List.length_eq_zero.mp (Nat.le_zero.mp hs)
    subst this
    exact LN.nil
  | succ n ih =>
    intro s hs
    match s with
    | [] => exact LN.nil
    | [c] =>
      rw [splitlines_single]
      by_cases hb : isLineBreakCh c = true
      · rw [if_pos hb]
        exact LN.trailBrk c hb
      · rw [if_neg hb]
        exact LN.ch c [] [] (by simpa using hb) LN.nil
    | c1 :: c2 :: rest =>
      simp only [List.length_cons] at hs
      by_cases hcr : (c1 = '\r' && c2 = '\n') = true
      · simp only [Bool.and_eq_true, decide_eq_true_eq] at hcr
        obtain ⟨rfl, rfl⟩ := hcr
        rw [splitlines_crlf]
        cases hrest : rest with
        | nil => exact LN.trailCrlf
        | cons c3 rest3 =>
          rw [← hrest,
            joinLines_nil_cons _ (splitlines_ne_nil rest (by rw [hrest]; simp))]
          exact LN.crlf rest _ (ih rest (by omega))
      · by_cases hb : isLineBreakCh c1 = true
        · rw [splitlines_two_break c1 c2 rest (by simpa using hcr) hb,
            joinLines_nil_cons _ (splitlines_ne_nil (c2 :: rest) (by simp))]
          exact LN.brk c1 _ _ hb (ih (c2 :: rest) (by simp only [List.length_cons]; omega))
        · rw [splitlines_two_nobreak c1 c2 rest (by simpa using hb)]
          obtain ⟨l, ls, hls⟩ : ∃ l ls, splitlines (c2 :: rest) = l :: ls := by
            cases h2 : splitlines (c2 :: rest) with
            | nil => exact absurd h2 (splitlines_ne_nil (c2 :: rest) (by simp))
            | cons l ls => exact ⟨l, ls, rfl⟩
          rw [hls]
          simp only [consLine]
          rw [joinLines_consLine_head, ← hls]
          exact LN.ch c1 _ _ (by simpa using hb)
            (ih (c2 :: rest) (by simp only [List.length_cons]; omega))

theorem ln_join_split (s : List Char) : LN s (joinLines (splitlines s)) :=
  ln_join_split_aux s.length s (Nat.le_refl _)

theorem break_imp_space (c : Char) (h : isLineBreakCh c = true) : isPySpace c = true := by
  simp only [isLineBreakCh, Bool.or_eq_true, decide_eq_true_eq] at h
  rcases h with ((((((((h | h) | h) | h) | h) | h) | h) | h) | h) | h <;> subst h <;> decide

theorem ln_dropWhile : ∀ (s t : List Char), LN s t →
    LN (s.dropWhile isPySpace) (t.dropWhile isPySpace) := by
  intro s t h
  induction h with
  | nil => exact LN.nil
  | ch c s' t' hb hrel ih =>
    by_cases hc : isPySpace c = true
    · simpa [List.dropWhile, hc] using ih
    · simp only [List.dropWhile, hc]
      exact LN.ch c s' t' hb hrel
  | crlf s' t' hrel ih =>
    have h1 : isPySpace '\r' = true := by decide
    have h2 : isPySpace '\n' = true := by decide
    simpa [List.dropWhile, h1, h2] using ih
  | brk c s' t' hb hrel ih =>
    have h1 : isPySpace c = true := break_imp_space c hb
    have h2 : isPySpace '\n' = true := by decide
    simpa [List.dropWhile, h1, h2] using ih
  | trailCrlf =>
    have : (['\r', '\n'].dropWhile isPySpace) = [] := by decide
    rw [this]
    exact LN.nil
  | trailBrk c hb =>
    have h1 : isPySpace c = true := break_imp_space c hb
    simp only [List.dropWhile, h1]
    exact LN.nil

/-- Literal tokens of the heading pattern are never line boundaries. -/
def litNotBreak : PTok → Bool
  | PTok.lit a => !(isLineBreakCh a)
  | _ => true

theorem headingToks_all_litNotBreak : headingToks.all litNotBreak = true := by decide

theorem headingToks_lit_not_break (a : Char) (π : List PTok)
    (hsuf : (PTok.lit a :: π) <:+ headingToks) : isLineBreakCh a = false := by
  have hmem : PTok.lit a ∈ headingToks := hsuf.subset (List.mem_cons_self _ _)
  have := List.all_eq_true.mp headingToks_all_litNotBreak _ hmem
  simpa [litNotBreak] using this

/-- The simulation lemma again, this time across line normalization. -/
theorem ln_runPat_none :
    ∀ (π : List PTok), π <:+ headingToks →
      ∀ s t, LN s t → runPat π s = none → runPat π t = none := by
  intro π
  induction π with
  | nil =>
    intro _ s t _ hnone
    simp [runPat] at hnone
  | cons p π' ih =>
    intro hsuf s t hrel hnone
    have hsuf' : π' <:+ headingToks := (List.suffix_cons p π').trans hsuf
    cases p with
    | spaces =>
      simp only [runPat] at hnone ⊢
      exact ih hsuf' _ _ (ln_dropWhile s t hrel) hnone
    | lit a =>
      have hna : isLineBreakCh a = false := headingToks_lit_not_break a π' hsuf
      have hnla : ('\n' : Char) ≠ a := fun hh => by
        rw [← hh] at hna
        exact absurd hna (by decide)
      cases hrel with
      | nil => exact hnone
      | ch c s' t' hb hrel' =>
        simp only [runPat] at hnone ⊢
        by_cases hca : c = a
        · rw [if_pos hca] at hnone ⊢
          exact ih hsuf' s' t' hrel' hnone
        · rw [if_neg hca]
      | crlf s' t' hrel' =>
        simp only [runPat]
        rw [if_neg hnla]
      | brk c s' t' hb hrel' =>
        simp only [runPat]
        rw [if_neg hnla]
      | trailCrlf => simp [runPat]
      | trailBrk c hb => simp [runPat]
    | dash =>
      cases hrel with
      | nil => exact hnone
      | ch c s' t' hb hrel' =>
        simp only [runPat] at hnone ⊢
        by_cases hca : (c = '—' || c = '-') = true
        · rw [if_pos hca] at hnone ⊢
          exact ih hsuf' s' t' hrel' hnone
        · rw [if_neg hca]
      | crlf s' t' hrel' =>
        simp only [runPat]
        rw [if_neg (by decide)]
      | brk c s' t' hb hrel' =>
        simp only [runPat]
        rw [if_neg (by decide)]
      | trailCrlf => simp [runPat]
      | trailBrk c hb => simp [runPat]
    | digit =>
      cases hrel with
      | nil => exact hnone
      | ch c s' t' hb hrel' =>
        simp only [runPat] at hnone ⊢
        by_cases hca : isAsciiDigit c = true
        · rw [if_pos hca] at hnone ⊢
          exact ih hsuf' s' t' hrel' hnone
        · rw [if_neg hca]
      | crlf s' t' hrel' =>
        simp only [runPat]
        rw [if_neg (by decide)]
      | brk c s' t' hb hrel' =>
        simp only [runPat]
        rw [if_neg (by decide)]
      | trailCrlf => simp [runPat]
      | trailBrk c hb => simp [runPat]

theorem sane_cons_inv_shift (iso : List Char) (c : Char) (s : List Char)
    (h : Sane iso (c :: s)) (hc : c ≠ 'O') :
    runPat headingToks (c :: s) = none ∧ Sane iso s := by
  generalize hx : c :: s = x at h
  cases h with
  | nil => simp at hx
  | cons c' s' hnone hs =>
    rw [List.cons.injEq] at hx
    obtain ⟨rfl, rfl⟩ := hx
    exact ⟨hnone, hs⟩
  | repl t ht =>
    exfalso
    apply hc
    have he : headingRepl iso ++ t = 'O' :: ((headingRepl iso).tail ++ t) := rfl
    rw [he, List.cons.injEq] at hx
    exact hx.1

theorem ln_append_nobrk :
    ∀ (p : List Char), (∀ c ∈ p, isLineBreakCh c = false) →
      ∀ s u, LN (p ++ s) u → ∃ u', u = p ++ u' ∧ LN s u' := by
  intro p
  induction p with
  | nil =>
    intro _ s u h
    exact ⟨u, rfl, h⟩
  | cons a p' ih =>
    intro hfree s u h
    have ha : isLineBreakCh a = false := hfree a (by simp)
    rw [List.cons_append] at h
    revert h
    generalize hq : p' ++ s = q
    intro h
    cases h with
    | ch _ _ t' hb hrel =>
      obtain ⟨u', rfl, hu⟩ := ih (fun c hc => hfree c (by simp [hc])) s t'
        (by rw [hq]; exact hrel)
      exact ⟨u', by simp, hu⟩
    | crlf s'' t' hrel => exact absurd ha (by decide)
    | brk _ s'' t' hb hrel => exact absurd hb (by rw [ha]; simp)
    | trailCrlf => exact absurd ha (by decide)
    | trailBrk _ hb => exact absurd hb (by rw [ha]; simp)

/-- Sanity survives line normalization. -/
theorem sane_trans_ln (iso : List Char)
    (hfree : ∀ c ∈ headingRepl iso, isLineBreakCh c = false) :
    ∀ s, Sane iso s → ∀ t, LN s t → Sane iso t := by
  intro s hs
  induction hs with
  | nil =>
    intro t ht
    cases ht
    exact Sane.nil
  | cons c s' hnone hs' ih =>
    intro t ht
    generalize hx : c :: s' = x at ht
    cases ht with
    | nil => simp at hx
    | ch c₀ s₀ t' hb hrel =>
      rw [List.cons.injEq] at hx
      obtain ⟨rfl, rfl⟩ := hx
      exact Sane.cons c t'
        (ln_runPat_none headingToks (List.suffix_refl _) (c :: s') (c :: t')
          (LN.ch c s' t' hb hrel) hnone) (ih t' hrel)
    | crlf s'' t' hrel =>
      rw [List.cons.injEq] at hx
      obtain ⟨rfl, rfl⟩ := hx
      exact ih ('\n' :: t') (LN.brk '\n' s'' t' (by decide) hrel)
    | brk c₀ s₀ t' hb hrel =>
      rw [List.cons.injEq] at hx
      obtain ⟨rfl, rfl⟩ := hx
      exact Sane.cons '\n' t' (runPat_heading_ne_O '\n' t' (by decide)) (ih t' hrel)
    | trailCrlf =>
      rw [List.cons.injEq] at hx
      exact Sane.nil
    | trailBrk c₀ hb =>
      exact Sane.nil
  | repl t₀ ht₀ ih =>
    intro t ht
    obtain ⟨u', rfl, hu⟩ := ln_append_nobrk (headingRepl iso) hfree t₀ t ht
    exact Sane.repl u' (ih u' hu)

/-- The first effective token of the state rejects the character `c`
(for a non-whitespace `c`). -/
def tokRejectsChar (c : Char) : List PTok → Bool
  | PTok.lit a :: _ => c != a
  | PTok.dash :: _ => !(c = '—' || c = '-')
  | PTok.digit :: _ => !isAsciiDigit c
  | PTok.spaces :: PTok.dash :: _ => !(c = '—' || c = '-')
  | PTok.spaces :: PTok.digit :: _ => !isAsciiDigit c
  | _ => false

theorem tokRejectsChar_none (c : Char) (hc : isPySpace c = false) :
    ∀ (π : List PTok), tokRejectsChar c π = true → ∀ v, runPat π (c :: v) = none := by
  intro π h v
  match π, h with
  | PTok.lit a :: ps, h =>
    simp only [tokRejectsChar, bne_iff_ne, ne_eq] at h
    simp only [runPat]
    rw [if_neg h]
  | PTok.dash :: ps, h =>
    simp only [tokRejectsChar, Bool.not_eq_true'] at h
    simp only [runPat]
    rw [if_neg (by rw [h]; exact Bool.false_ne_true)]
  | PTok.digit :: ps, h =>
    simp only [tokRejectsChar, Bool.not_eq_true'] at h
    simp only [runPat]
    rw [if_neg (by rw [h]; exact Bool.false_ne_true)]
  | PTok.spaces :: PTok.dash :: ps, h =>
    simp only [tokRejectsChar, Bool.not_eq_true'] at h
    simp only [runPat, List.dropWhile, hc]
    rw [if_neg (by rw [h]; exact Bool.false_ne_true)]
  | PTok.spaces :: PTok.digit :: ps, h =>
    simp only [tokRejectsChar, Bool.not_eq_true'] at h
    simp only [runPat, List.dropWhile, hc]
    rw [if_neg (by rw [h]; exact Bool.false_ne_true)]

/-- A pattern state that fails on any text starting `D`, `a`. -/
def headRejectsDA : List PTok → Bool
  | PTok.lit 'D' :: π₂ => tokRejectsChar 'a' π₂
  | π => tokRejectsChar 'D' π

theorem headRejectsDA_none (π : List PTok) (h : headRejectsDA π = true) (v : List Char) :
    runPat π ('D' :: 'a' :: v) = none := by
  have hD : isPySpace 'D' = false := by decide
  have ha : isPySpace 'a' = false := by decide
  match π, h with
  | PTok.lit a :: π₂, h =>
    by_cases hDa : a = 'D'
    · subst hDa
      simp only [headRejectsDA] at h
      simp only [runPat, if_pos rfl]
      exact tokRejectsChar_none 'a' ha π₂ h v
    · simp only [runPat]
      rw [if_neg (fun hh : 'D' = a => hDa hh.symm)]
  | PTok.dash :: ps, h =>
    exact tokRejectsChar_none 'D' hD _ (by simpa [headRejectsDA] using h) ('a' :: v)
  | PTok.digit :: ps, h =>
    exact tokRejectsChar_none 'D' hD _ (by simpa [headRejectsDA] using h) ('a' :: v)
  | PTok.spaces :: ps, h =>
    exact tokRejectsChar_none 'D' hD _ (by simpa [headRejectsDA] using h) ('a' :: v)
  | [], h => exact absurd h (by simp [headRejectsDA, tokRejectsChar])

/-- Every nonempty suffix of the heading pattern fails on `D`, `a`
(the only `D` literal in the pattern is followed by `i`). -/
theorem headingToks_tails_DA :
    ∀ π ∈ headingToks.tails, π = [] ∨ headRejectsDA π = true := by decide

theorem suffix_rejects_DA (π : List PTok) (hsuf : π <:+ headingToks)
    (hnil : π ≠ []) (v : List Char) : runPat π ('D' :: 'a' :: v) = none := by
  have hmem : π ∈ headingToks.tails := (List.mem_tails π headingToks).mpr hsuf
  rcases headingToks_tails_DA π hmem with h | h
  · exact absurd h hnil
  · exact headRejectsDA_none π h v

theorem dropWhile_append_D (v : List Char) :
    ∀ (u : List Char),
      (u ++ 'D' :: v).dropWhile isPySpace = u.dropWhile isPySpace ++ 'D' :: v := by
  intro u
  induction u with
  | nil => simp [List.dropWhile, show isPySpace 'D' = false from by decide]
  | cons b u' ih =>
    by_cases hb : isPySpace b = true
    · simpa [List.cons_append, List.dropWhile, hb] using ih
    · simp [List.cons_append, List.dropWhile, hb]

/-- Transfer of match failure across replacing one `D a`-headed segment
by another: a failing scan cannot cross into the segment beyond its
first two characters, which agree. -/
theorem runPat_transfer_DA (v₁ v₂ : List Char) :
    ∀ (π : List PTok), π <:+ headingToks →
      ∀ (u : List Char), runPat π (u ++ 'D' :: 'a' :: v₁) = none →
        runPat π (u ++ 'D' :: 'a' :: v₂) = none := by
  intro π
  induction π with
  | nil =>
    intro _ u hnone
    simp [runPat] at hnone
  | cons p π' ih =>
    intro hsuf u hnone
    have hsuf' : π' <:+ headingToks := (List.suffix_cons p π').trans hsuf
    cases p with
    | spaces =>
      simp only [runPat] at hnone ⊢
      rw [show ('D' : Char) :: 'a' :: v₁ = 'D' :: ('a' :: v₁) from rfl,
        dropWhile_append_D ('a' :: v₁) u] at hnone
      rw [show ('D' : Char) :: 'a' :: v₂ = 'D' :: ('a' :: v₂) from rfl,
        dropWhile_append_D ('a' :: v₂) u]
      exact ih hsuf' (u.dropWhile isPySpace) hnone
    | lit a =>
      cases u with
      | nil => exact suffix_rejects_DA (PTok.lit a :: π') hsuf (by simp) v₂
      | cons b u' =>
        simp only [List.cons_append, runPat] at hnone ⊢
        by_cases hba : b = a
        · rw [if_pos hba] at hnone ⊢
          exact ih hsuf' u' hnone
        · rw [if_neg hba]
    | dash =>
      cases u with
      | nil => exact suffix_rejects_DA (PTok.dash :: π') hsuf (by simp) v₂
      | cons b u' =>
        simp only [List.cons_append, runPat] at hnone ⊢
        by_cases hba : (b = '—' || b = '-') = true
        · rw [if_pos hba] at hnone ⊢
          exact ih hsuf' u' hnone
        · rw [if_neg hba]
    | digit =>
      cases u with
      | nil => exact suffix_rejects_DA (PTok.digit :: π') hsuf (by simp) v₂
      | cons b u' =>
        simp only [List.cons_append, runPat] at hnone ⊢
        by_cases hba : isAsciiDigit b = true
        · rw [if_pos hba] at hnone ⊢
          exact ih hsuf' u' hnone
        · rw [if_neg hba]

theorem sane_prepend_noO (iso : List Char) :
    ∀ (p : List Char), (∀ c ∈ p, c ≠ 'O') → ∀ t, Sane iso t → Sane iso (p ++ t) := by
  intro p
  induction p with
  | nil =>
    intro _ t ht
    simpa using ht
  | cons a p' ih =>
    intro hp t ht
    rw [List.cons_append]
    exact Sane.cons a (p' ++ t) (runPat_heading_ne_O a _ (hp a (by simp)))
      (ih (fun c hc => hp c (by simp [hc])) t ht)

theorem isoStr_chars (y m d : Nat) (c : Char) (hc : c ∈ isoStr y m d) :
    isLineBreakCh c = false ∧ isPySpace c = false ∧ c ≠ 'O' ∧ c ≠ 'D' := by
  have hdig : ∀ n : Nat, isLineBreakCh (digitChar10 n) = false ∧
      isPySpace (digitChar10 n) = false ∧ digitChar10 n ≠ 'O' ∧ digitChar10 n ≠ 'D' :=
    fun n => ⟨isLineBreakCh_digitChar10 n, (digitChar10_facts n).2.1,
      digitChar10_ne_O n, (digitChar10_facts n).2.2.2.2.1⟩
  have hdash : isLineBreakCh '-' = false ∧ isPySpace '-' = false ∧
      ('-' : Char) ≠ 'O' ∧ ('-' : Char) ≠ 'D' := by
    refine ⟨by decide, by decide, by decide, by decide⟩
  simp only [isoStr, List.mem_cons, List.not_mem_nil, or_false] at hc
  rcases hc with rfl | rfl | rfl | rfl | rfl | rfl | rfl | rfl | rfl | rfl <;>
    first
      | exact hdash
      | exact hdig _

theorem headingRepl_isoStr_free (y m d : Nat) :
    ∀ c ∈ headingRepl (isoStr y m d), isLineBreakCh c = false := by
  intro c hc
  have hsplit : headingRepl (isoStr y m d)
      = (headingLit ++ [' ', '—', ' ']) ++ isoStr y m d := by
    simp [headingRepl]
  rw [hsplit] at hc
  rcases List.mem_append.mp hc with h | h
  · have hall : ∀ x ∈ headingLit ++ [' ', '—', ' '], isLineBreakCh x = false := by decide
    exact hall c h
  · exact (isoStr_chars y m d c h).1

theorem headingRepl_isoStr_tail_no_O (y m d : Nat) :
    ∀ c ∈ (headingRepl (isoStr y m d)).tail, c ≠ 'O' := by
  intro c hc
  have hsplit : (headingRepl (isoStr y m d)).tail
      = (headingLit.tail ++ [' ', '—', ' ']) ++ isoStr y m d := by
    rw [show (headingRepl (isoStr y m d)).tail
        = headingLit.tail ++ ' ' :: '—' :: ' ' :: isoStr y m d from rfl]
    simp
  rw [hsplit] at hc
  rcases List.mem_append.mp hc with h | h
  · have hall : ∀ x ∈ headingLit.tail ++ [' ', '—', ' '], x ≠ 'O' := by decide
    exact hall c h
  · exact (isoStr_chars y m d c h).2.2.1

/-- Sanity is closed under removing a prefix. -/
theorem sane_suffix (iso : List Char)
    (htailO : ∀ c ∈ (headingRepl iso).tail, c ≠ 'O') :
    ∀ (n : Nat) (u v : List Char), u.length ≤ n → Sane iso (u ++ v) → Sane iso v := by
  have hRlen : 1 ≤ (headingRepl iso).length := by
    rw [show headingRepl iso = 'O' :: ((headingRepl iso).tail) from rfl]
    simp
  intro n
  induction n with
  | zero =>
    intro u v hu h
    have : u = [] := List.length_eq_zero.mp (Nat.le_zero.mp hu)
    subst this
    simpa using h
  | succ n ih =>
    intro u v hu h
    cases u with
    | nil => simpa using h
    | cons a u' =>
      simp only [List.length_cons] at hu
      rw [List.cons_append] at h
      generalize hx : a :: (u' ++ v) = x at h
      cases h with
      | nil => simp at hx
      | cons c s hnone hs =>
        rw [List.cons.injEq] at hx
        obtain ⟨rfl, h2⟩ := hx
        exact ih u' v (by omega) (by rw [h2]; exact hs)
      | repl t ht =>
        have h1 : (a :: u') ++ v = headingRepl iso ++ t := by
          rw [List.cons_append, hx]
        by_cases hle : (headingRepl iso).length ≤ (a :: u').length
        · have ht2 : t = (a :: u').drop (headingRepl iso).length ++ v := by
            have he : t = ((a :: u') ++ v).drop (headingRepl iso).length := by
              rw [h1, List.drop_left]
            rw [he, List.drop_append_eq_append_drop,
              Nat.sub_eq_zero_of_le hle, List.drop_zero]
          have hlen' : ((a :: u').drop (headingRepl iso).length).length ≤ n := by
            rw [List.length_drop]
            simp only [List.length_cons]
            omega
          exact ih _ v hlen' (by rw [← ht2]; exact ht)
        · have hv : v = (headingRepl iso).drop (a :: u').length ++ t := by
            have he : v = ((a :: u') ++ v).drop (a :: u').length := by
              rw [List.drop_left]
            rw [he, h1, List.drop_append_eq_append_drop,
              Nat.sub_eq_zero_of_le (by omega), List.drop_zero]
          rw [hv]
          refine sane_prepend_noO iso _ ?_ t ht
          intro c hc
          apply htailO c
          rw [← List.drop_one]
          have : (headingRepl iso).drop (a :: u').length
              = ((headingRepl iso).drop 1).drop ((a :: u').length - 1) := by
            rw [List.drop_drop]
            congr 1
            simp only [List.length_cons]
            omega
          rw [this] at hc
          exact List.mem_of_mem_drop hc

theorem mem_of_getLast_opt (l : List Char) (x : Char) (h : l.getLast? = some x) : x ∈ l := by
  induction l with
  | nil => simp at h
  | cons a l' ih =>
    cases l' with
    | nil =>
      simp only [List.getLast?_singleton, Option.some.injEq] at h
      simp [h]
    | cons b l'' =>
      rw [List.getLast?_cons_cons] at h
      simp [ih h]

/-- Replacing the first `Date:`-headed segment of a sane text by another
`D a`-headed, `O`-free segment preserves sanity (the segment is preceded
by nothing or by text ending in a newline). -/
theorem sane_edit (iso : List Char)
    (htailO : ∀ c ∈ (headingRepl iso).tail, c ≠ 'O')
    (hRfree : ∀ c ∈ headingRepl iso, isLineBreakCh c = false)
    (l₃ D₂ Q : List Char)
    (hD : ∀ c ∈ ('D' :: 'a' :: D₂ : List Char), c ≠ 'O') :
    ∀ (n : Nat) (P : List Char), P.length ≤ n →
      (P = [] ∨ P.getLast? = some '\n') →
      Sane iso (P ++ 'D' :: 'a' :: (l₃ ++ Q)) →
      Sane iso (P ++ 'D' :: 'a' :: (D₂ ++ Q)) := by
  intro n
  induction n with
  | zero =>
    intro P hP _ h
    have : P = [] := List.length_eq_zero.mp (Nat.le_zero.mp hP)
    subst this
    simp only [List.nil_append] at h ⊢
    have hQ : Sane iso Q := by
      refine sane_suffix iso htailO ('D' :: 'a' :: l₃).length ('D' :: 'a' :: l₃) Q
        (Nat.le_refl _) ?_
      simpa using h
    have := sane_prepend_noO iso ('D' :: 'a' :: D₂) hD Q hQ
    simpa using this
  | succ n ih =>
    intro P hP hPnl h
    cases P with
    | nil =>
      simp only [List.nil_append] at h ⊢
      have hQ : Sane iso Q := by
        refine sane_suffix iso htailO ('D' :: 'a' :: l₃).length ('D' :: 'a' :: l₃) Q
          (Nat.le_refl _) ?_
        simpa using h
      have := sane_prepend_noO iso ('D' :: 'a' :: D₂) hD Q hQ
      simpa using this
    | cons a P' =>
      simp only [List.length_cons] at hP
      have hPnl' : P' = [] ∨ P'.getLast? = some '\n' := by
        cases hPnl with
        | inl h0 => exact absurd h0 (by simp)
        | inr h0 =>
          cases P' with
          | nil => exact Or.inl rfl
          | cons b P'' =>
            right
            rw [List.getLast?_cons_cons] at h0
            exact h0
      rw [List.cons_append] at h
      generalize hx : a :: (P' ++ 'D' :: 'a' :: (l₃ ++ Q)) = x at h
      cases h with
      | nil => simp at hx
      | cons c s hnone hs =>
        rw [List.cons.injEq] at hx
        obtain ⟨rfl, h2⟩ := hx
        have hs' : Sane iso (P' ++ 'D' :: 'a' :: (l₃ ++ Q)) := by rw [h2]; exact hs
        have hrec := ih P' (by omega) hPnl' hs'
        rw [List.cons_append]
        refine Sane.cons a _ ?_ hrec
        have htr := runPat_transfer_DA (l₃ ++ Q) (D₂ ++ Q) headingToks
          (List.suffix_refl _) (a :: P')
        rw [List.cons_append] at htr
        apply htr
        rw [← h2] at hnone
        exact hnone
      | repl t ht =>
        have h1 : (a :: P') ++ 'D' :: 'a' :: (l₃ ++ Q) = headingRepl iso ++ t := by
          rw [List.cons_append, hx]
        by_cases hle : (headingRepl iso).length ≤ (a :: P').length
        · have htk : headingRepl iso = (a :: P').take (headingRepl iso).length := by
            have h2 := congrArg (List.take (headingRepl iso).length) h1
            rw [List.take_left] at h2
            rw [List.take_append_eq_append_take, Nat.sub_eq_zero_of_le hle,
              List.take_zero, List.append_nil] at h2
            exact h2.symm
          have hPsplit : a :: P'
              = headingRepl iso ++ (a :: P').drop (headingRepl iso).length := by
            conv_lhs => rw [← List.take_append_drop (headingRepl iso).length (a :: P')]
            rw [← htk]
          have ht2 : t = (a :: P').drop (headingRepl iso).length ++ 'D' :: 'a' :: (l₃ ++ Q) := by
            have he : t = ((a :: P') ++ 'D' :: 'a' :: (l₃ ++ Q)).drop (headingRepl iso).length := by
              rw [h1, List.drop_left]
            rw [he, List.drop_append_eq_append_drop,
              Nat.sub_eq_zero_of_le hle, List.drop_zero]
          have hR1 : 1 ≤ (headingRepl iso).length := by
            rw [show headingRepl iso = 'O' :: (headingRepl iso).tail from rfl]
            simp
          have hlenP'' : ((a :: P').drop (headingRepl iso).length).length ≤ n := by
            rw [List.length_drop]
            simp only [List.length_cons]
            omega
          have hPnl'' : (a :: P').drop (headingRepl iso).length = [] ∨
              ((a :: P').drop (headingRepl iso).length).getLast? = some '\n' := by
            cases hdrop : (a :: P').drop (headingRepl iso).length with
            | nil => exact Or.inl rfl
            | cons b bs =>
              right
              have h0 : (a :: P').getLast? = some '\n' := by
                cases hPnl with
                | inl h0 => exact absurd h0 (by simp)
                | inr h0 => exact h0
              rw [hPsplit, List.getLast?_append_of_ne_nil _ (by rw [hdrop]; simp)] at h0
              rw [hdrop] at h0
              exact h0
          have hrec := ih _ hlenP'' hPnl'' (by rw [← ht2]; exact ht)
          rw [hPsplit, List.append_assoc]
          exact Sane.repl _ hrec
        · exfalso
          have hnl : (a :: P').getLast? = some '\n' := by
            cases hPnl with
            | inl h0 => exact absurd h0 (by simp)
            | inr h0 => exact h0
          have hmemP : '\n' ∈ (a :: P') := mem_of_getLast_opt _ _ hnl
          have htk : a :: P' = (headingRepl iso).take (a :: P').length := by
            have h2 := congrArg (List.take (a :: P').length) h1
            rw [List.take_left] at h2
            rw [List.take_append_eq_append_take,
              Nat.sub_eq_zero_of_le (by omega), List.take_zero, List.append_nil] at h2
            exact h2
          have hmemR : '\n' ∈ headingRepl iso := by
            rw [htk] at hmemP
            exact List.mem_of_mem_take hmemP
          exact absurd (hRfree '\n' hmemR) (by decide)

/-! ### Round-trip facts for `splitlines` / `joinLines` -/

theorem splitlines_free :
    ∀ (n : Nat) (s : List Char), s.length ≤ n →
      ∀ l ∈ splitlines s, ∀ c ∈ l, isLineBreakCh c = false := by
  intro n
  induction n with
  | zero =>
    intro s hs
    have : s = [] := List.length_eq_zero.mp (Nat.le_zero.mp hs)
    subst this
    intro l hl
    rw [show splitlines ([] : List Char) = [] from rfl] at hl
    simp at hl
  | succ n ih =>
    intro s hs l hl c hc
    match s with
    | [] =>
      rw [show splitlines ([] : List Char) = [] from rfl] at hl
      simp at hl
    | [c1] =>
      rw [splitlines_single] at hl
      by_cases hb : isLineBreakCh c1 = true
      · rw [if_pos hb] at hl
        simp at hl
        subst hl
        simp at hc
      · rw [if_neg hb] at hl
        simp at hl
        subst hl
        simp at hc
        subst hc
        simpa using hb
    | c1 :: c2 :: rest =>
      simp only [List.length_cons] at hs
      by_cases hcr : (c1 = '\r' && c2 = '\n') = true
      · simp only [Bool.and_eq_true, decide_eq_true_eq] at hcr
        obtain ⟨rfl, rfl⟩ := hcr
        rw [splitlines_crlf] at hl
        rcases List.mem_cons.mp hl with rfl | hl'
        · simp at hc
        · exact ih rest (by omega) l hl' c hc
      · by_cases hb : isLineBreakCh c1 = true
        · rw [splitlines_two_break c1 c2 rest (by simpa using hcr) hb] at hl
          rcases List.mem_cons.mp hl with rfl | hl'
          · simp at hc
          · exact ih (c2 :: rest) (by simp only [List.length_cons]; omega) l hl' c hc
        · rw [splitlines_two_nobreak c1 c2 rest (by simpa using hb)] at hl
          obtain ⟨l0, ls0, hls⟩ : ∃ l0 ls0, splitlines (c2 :: rest) = l0 :: ls0 := by
            cases hsp : splitlines (c2 :: rest) with
            | nil => exact absurd hsp (splitlines_ne_nil (c2 :: rest) (by simp))
            | cons a b => exact ⟨a, b, rfl⟩
          rw [hls] at hl
          simp only [consLine] at hl
          rcases List.mem_cons.mp hl with rfl | hl'
          · rcases List.mem_cons.mp hc with rfl | hc'
            · simpa using hb
            · exact ih (c2 :: rest) (by simp only [List.length_cons]; omega) l0
                (by rw [hls]; simp) c hc'
          · exact ih (c2 :: rest) (by simp only [List.length_cons]; omega) l
              (by rw [hls]; simp [hl']) c hc

theorem splitlines_of_free (l : List Char) :
    (∀ c ∈ l, isLineBreakCh c = false) → l ≠ [] → splitlines l = [l] := by
  induction l with
  | nil => intro _ hne; exact absurd rfl hne
  | cons c l' ih =>
    intro hfree _
    cases l' with
    | nil =>
      rw [splitlines_single, if_neg (by simp [hfree c (by simp)])]
    | cons c2 l'' =>
      rw [splitlines_two_nobreak c c2 l'' (hfree c (by simp)),
        ih (fun x hx => hfree x (by simp [hx])) (by simp)]
      rfl

theorem splitlines_append_nl (v : List Char) :
    ∀ (l : List Char), (∀ c ∈ l, isLineBreakCh c = false) →
      splitlines (l ++ '\n' :: v) = l :: splitlines v := by
  intro l
  induction l with
  | nil =>
    intro _
    simp only [List.nil_append]
    cases v with
    | nil => rw [splitlines_single]; rfl
    | cons c2 v' =>
      rw [splitlines_two_break '\n' c2 v' (by simp) (by decide)]
  | cons a l' ih =>
    intro hfree
    cases l' with
    | nil =>
      simp only [List.nil_append, List.cons_append]
      rw [splitlines_two_nobreak a '\n' v (hfree a (by simp))]
      cases v with
      | nil => rw [splitlines_single]; rfl
      | cons c2 v' =>
        rw [splitlines_two_break '\n' c2 v' (by simp) (by decide)]
        rfl
    | cons b l'' =>
      rw [show (a :: b :: l'') ++ '\n' :: v = a :: (b :: (l'' ++ '\n' :: v)) from rfl,
        splitlines_two_nobreak a b _ (hfree a (by simp)),
        show (b :: (l'' ++ '\n' :: v) : List Char) = (b :: l'') ++ '\n' :: v from rfl,
        ih (fun x hx => hfree x (by simp [hx]))]
      rfl

theorem splitlines_joinLines :
    ∀ (L : List (List Char)), (∀ l ∈ L, ∀ c ∈ l, isLineBreakCh c = false) →
      L.getLast? ≠ some [] →
      splitlines (joinLines L) = L := by
  intro L
  induction L with
  | nil => intro _ _; rfl
  | cons l ls ih =>
    intro hfree hlast
    cases ls with
    | nil =>
      have hl : l ≠ [] := fun h => hlast (by simp [h])
      rw [show joinLines [l] = l from rfl, splitlines_of_free l (hfree l (by simp)) hl]
    | cons l2 ls2 =>
      rw [joinLines_cons_ne_nil l (l2 :: ls2) (by simp),
        splitlines_append_nl (joinLines (l2 :: ls2)) l (hfree l (by simp)),
        ih (fun l' h' => hfree l' (by simp [h'])) (by
          rw [List.getLast?_cons_cons] at hlast
          exact hlast)]

/-! ### Decomposition of a join around one line, and the `Date:` edit -/

def joinPre (A : List (List Char)) : List Char :=
  if A = [] then [] else joinLines A ++ ['\n']

def joinSuf (B : List (List Char)) : List Char :=
  if B = [] then [] else '\n' :: joinLines B

theorem joinLines_decomp :
    ∀ (A : List (List Char)) (l : List Char) (B : List (List Char)),
      joinLines (A ++ l :: B) = joinPre A ++ (l ++ joinSuf B) := by
  intro A
  induction A with
  | nil =>
    intro l B
    simp only [List.nil_append, joinPre, if_pos rfl]
    cases B with
    | nil => simp [joinSuf, joinLines]
    | cons b bs =>
      rw [joinLines_cons_ne_nil l (b :: bs) (by simp)]
      simp [joinSuf]
  | cons a A' ih =>
    intro l B
    rw [List.cons_append, joinLines_cons_ne_nil a (A' ++ l :: B) (by simp), ih l B]
    have hpre : joinPre (a :: A') = a ++ '\n' :: joinPre A' := by
      cases hA : A' with
      | nil => simp [joinPre, joinLines]
      | cons b bs =>
        rw [joinPre, if_neg (by simp), joinLines_cons_ne_nil a (b :: bs) (by simp),
          joinPre, if_neg (by simp)]
        simp
    rw [hpre]
    simp

theorem joinPre_ends (A : List (List Char)) :
    joinPre A = [] ∨ (joinPre A).getLast? = some '\n' := by
  by_cases hA : A = []
  · left
    simp [joinPre, hA]
  · right
    rw [joinPre, if_neg hA, List.getLast?_concat]

theorem fixDateLines_action (iso : List Char) :
    ∀ (fuel : Nat) (L : List (List Char)),
      fixDateLines iso fuel L = L ∨
      ∃ A l B, L = A ++ l :: B ∧ startsWithDate l = true ∧
        fixDateLines iso fuel L = A ++ rewriteDateLine iso l :: B := by
  intro fuel
  induction fuel with
  | zero =>
    intro L
    left
    cases L <;> rfl
  | succ fuel ih =>
    intro L
    cases L with
    | nil => left; rfl
    | cons l ls =>
      by_cases hl : startsWithDate l = true
      · right
        exact ⟨[], l, ls, rfl, hl, by simp [fixDateLines, hl]⟩
      · rcases ih ls with h | ⟨A, l₀, B, hsplit, hl₀, hfix⟩
        · left
          simp [fixDateLines, hl, h]
        · right
          refine ⟨l :: A, l₀, B, by rw [hsplit]; rfl, hl₀, ?_⟩
          simp [fixDateLines, hl, hfix]

theorem startsWithDate_shape (l : List Char) (h : startsWithDate l = true) :
    ∃ l₅, l = 'D' :: 'a' :: 't' :: 'e' :: ':' :: l₅ := by
  unfold startsWithDate at h
  split at h
  · rename_i rest
    exact ⟨rest, rfl⟩
  · simp at h

theorem dropWhile_eq_self_of_nospace (l : List Char)
    (h : ∀ c ∈ l, isPySpace c = false) : l.dropWhile isPySpace = l := by
  cases l with
  | nil => rfl
  | cons c r => simp [List.dropWhile, h c (by simp)]

theorem stripBoth_eq_self_of_nospace (l : List Char)
    (h : ∀ c ∈ l, isPySpace c = false) : stripBoth l = l := by
  unfold stripBoth
  rw [dropWhile_eq_self_of_nospace l h,
    dropWhile_eq_self_of_nospace l.reverse (fun c hc => h c (List.mem_reverse.mp hc)),
    List.reverse_reverse]

/-- Shape of any rewritten `Date:` line: it starts `D a`, contains no
`O` and no line boundary. -/
theorem rewriteDateLine_shape (y m d : Nat) (l : List Char) :
    ∃ D₂, rewriteDateLine (isoStr y m d) l = 'D' :: 'a' :: D₂ ∧
      (∀ c ∈ ('D' :: 'a' :: D₂ : List Char), c ≠ 'O') ∧
      (∀ c ∈ ('D' :: 'a' :: D₂ : List Char), isLineBreakCh c = false) := by
  by_cases hp : (parseIsoDate (dateCandidate l)).isSome
  · refine ⟨'t' :: 'e' :: ':' :: ' ' :: isoStr y m d, by simp [rewriteDateLine, hp], ?_, ?_⟩
    · intro c hc
      simp only [List.mem_cons] at hc
      rcases hc with rfl | rfl | rfl | rfl | rfl | rfl | hc
      · decide
      · decide
      · decide
      · decide
      · decide
      · decide
      · exact (isoStr_chars y m d c hc).2.2.1
    · intro c hc
      simp only [List.mem_cons] at hc
      rcases hc with rfl | rfl | rfl | rfl | rfl | rfl | hc
      · decide
      · decide
      · decide
      · decide
      · decide
      · decide
      · exact (isoStr_chars y m d c hc).1
  · refine ⟨'t' :: 'e' :: ':' :: ' ' :: 'u' :: 'n' :: 'k' :: 'n' :: 'o' :: 'w' :: 'n' :: [],
      by simp [rewriteDateLine, hp, dateUnknownLine], ?_, ?_⟩
    · intro c hc
      fin_cases hc <;> decide
    · intro c hc
      fin_cases hc <;> decide

theorem rewriteDateLine_idem (y m d : Nat) (hv : validDate y m d = true) (l : List Char) :
    rewriteDateLine (isoStr y m d) (rewriteDateLine (isoStr y m d) l)
      = rewriteDateLine (isoStr y m d) l ∧
    startsWithDate (rewriteDateLine (isoStr y m d) l) = true := by
  have hnosp : ∀ c ∈ isoStr y m d, isPySpace c = false :=
    fun c hc => (isoStr_chars y m d c hc).2.1
  by_cases hp : (parseIsoDate (dateCandidate l)).isSome
  · have hD : rewriteDateLine (isoStr y m d) l
        = 'D' :: 'a' :: 't' :: 'e' :: ':' :: ' ' :: isoStr y m d := by
      simp [rewriteDateLine, hp]
    constructor
    · rw [hD]
      have hcand : dateCandidate ('D' :: 'a' :: 't' :: 'e' :: ':' :: ' ' :: isoStr y m d)
          = isoStr y m d := by
        unfold dateCandidate
        rw [show (('D' :: 'a' :: 't' :: 'e' :: ':' :: ' ' :: isoStr y m d : List Char)).drop 5
            = ' ' :: isoStr y m d from rfl]
        rw [show ((' ' :: isoStr y m d : List Char)).dropWhile isPySpace
            = (isoStr y m d).dropWhile isPySpace from by
          rw [List.dropWhile_cons, if_pos (by decide : isPySpace ' ' = true)]]
        rw [dropWhile_eq_self_of_nospace _ hnosp, stripBoth_eq_self_of_nospace _ hnosp]
      rw [show rewriteDateLine (isoStr y m d) ('D' :: 'a' :: 't' :: 'e' :: ':' :: ' ' :: isoStr y m d)
          = if (parseIsoDate (dateCandidate ('D' :: 'a' :: 't' :: 'e' :: ':' :: ' ' :: isoStr y m d))).isSome
            then 'D' :: 'a' :: 't' :: 'e' :: ':' :: ' ' :: isoStr y m d
            else dateUnknownLine from rfl]
      rw [hcand, parseIsoDate_isoStr y m d hv]
      simp
    · rw [hD]
      rfl
  · have hD : rewriteDateLine (isoStr y m d) l = dateUnknownLine := by
      simp [rewriteDateLine, hp]
    constructor
    · rw [hD]
      have hcand : dateCandidate dateUnknownLine
          = ['u', 'n', 'k', 'n', 'o', 'w', 'n'] := by decide
      rw [show rewriteDateLine (isoStr y m d) dateUnknownLine
          = if (parseIsoDate (dateCandidate dateUnknownLine)).isSome
            then 'D' :: 'a' :: 't' :: 'e' :: ':' :: ' ' :: isoStr y m d
            else dateUnknownLine from rfl]
      rw [hcand]
      rw [show parseIsoDate ['u', 'n', 'k', 'n', 'o', 'w', 'n'] = none from rfl]
      rfl
    · rw [hD]
      rfl

theorem fixDateLines_idem (y m d : Nat) (hv : validDate y m d = true) :
    ∀ (fuel : Nat) (L : List (List Char)),
      fixDateLines (isoStr y m d) fuel (fixDateLines (isoStr y m d) fuel L)
        = fixDateLines (isoStr y m d) fuel L := by
  intro fuel
  induction fuel with
  | zero =>
    intro L
    cases L <;> rfl
  | succ fuel ih =>
    intro L
    cases L with
    | nil => rfl
    | cons l ls =>
      by_cases hl : startsWithDate l = true
      · have h1 : fixDateLines (isoStr y m d) (fuel + 1) (l :: ls)
            = rewriteDateLine (isoStr y m d) l :: ls := by
          simp [fixDateLines, hl]
        rw [h1]
        have h2 := rewriteDateLine_idem y m d hv l
        simp [fixDateLines, h2.2, h2.1]
      · have h1 : fixDateLines (isoStr y m d) (fuel + 1) (l :: ls)
            = l :: fixDateLines (isoStr y m d) fuel ls := by
          simp [fixDateLines, hl]
        rw [h1]
        simp [fixDateLines, hl, ih ls]

theorem joinLines_ends_nl :
    ∀ (L : List (List Char)), L.getLast? = some [] → 2 ≤ L.length →
      (joinLines L).getLast? = some '\n' := by
  intro L
  induction L with
  | nil =>
    intro h _
    simp at h
  | cons l ls ih =>
    intro hlast hlen
    cases ls with
    | nil => simp at hlen
    | cons l2 ls2 =>
      rw [joinLines_cons_ne_nil l (l2 :: ls2) (by simp)]
      cases ls2 with
      | nil =>
        have h2 : l2 = [] := by
          rw [List.getLast?_cons_cons] at hlast
          simpa using hlast
        subst h2
        rw [show joinLines [([] : List Char)] = [] from rfl,
          List.getLast?_append_of_ne_nil _ (by simp)]
        rfl
      | cons l3 ls3 =>
        have hrec := ih (by rw [List.getLast?_cons_cons] at hlast; exact hlast) (by simp)
        rw [List.getLast?_append_of_ne_nil _ (by simp)]
        have hne : joinLines (l2 :: l3 :: ls3) ≠ [] := by
          rw [joinLines_cons_ne_nil l2 (l3 :: ls3) (by simp)]
          simp
        rw [show ('\n' :: joinLines (l2 :: l3 :: ls3) : List Char)
            = ['\n'] ++ joinLines (l2 :: l3 :: ls3) from rfl,
          List.getLast?_append_of_ne_nil _ hne]
        exact hrec

/-! ### C1: idempotence of sanitization -/

/-- **C1** (corrected). The spec claims `sanitize(sanitize(x,d),d) = sanitize(x,d)`
for all `x`. Because `"\n".join(body.splitlines())` drops one trailing line
terminator, re-sanitizing a text that still ends in `'\n'` shortens it again, so
idempotence fails in general (see the counterexample). It does hold whenever the
first sanitization's output does not end with `'\n'`: for a valid issue date
`(y, m, d)`, if `sanitize_digest_for_issue x y m d` has no trailing `'\n'`,
then sanitizing it again returns it unchanged. -/
theorem c1_sanitize_idem (x : List Char) (y m d : Nat)
    (hv : validDate y m d = true)
    (hnl : (sanitize_digest_for_issue x y m d).getLast? ≠ some '\n') :
    sanitize_digest_for_issue (sanitize_digest_for_issue x y m d) y m d
      = sanitize_digest_for_issue x y m d := by
  by_cases hze : sanitize_digest_for_issue x y m d = []
  · rw [hze]
    rfl
  · have hzdef : sanitize_digest_for_issue x y m d
        = joinLines (fixDateLines (isoStr y m d) 6
            (splitlines (subHeading (isoStr y m d) x))) := rfl
    have hSfree := splitlines_free (subHeading (isoStr y m d) x).length
        (subHeading (isoStr y m d) x) (Nat.le_refl _)
    have hS : Sane (isoStr y m d)
        (joinLines (splitlines (subHeading (isoStr y m d) x))) :=
      sane_trans_ln (isoStr y m d) (headingRepl_isoStr_free y m d)
        (subHeading (isoStr y m d) x) (sane_subHeading (isoStr y m d) x)
        (joinLines (splitlines (subHeading (isoStr y m d) x)))
        (ln_join_split (subHeading (isoStr y m d) x))
    obtain ⟨hsane, hLfree⟩ :
        Sane (isoStr y m d) (sanitize_digest_for_issue x y m d) ∧
        (∀ l ∈ fixDateLines (isoStr y m d) 6
            (splitlines (subHeading (isoStr y m d) x)),
          ∀ c ∈ l, isLineBreakCh c = false) := by
      rcases fixDateLines_action (isoStr y m d) 6
          (splitlines (subHeading (isoStr y m d) x)) with
        hact | ⟨A, l, B, hSdec, hlD, hact⟩
      · constructor
        · rw [hzdef, hact]
          exact hS
        · rw [hact]
          exact hSfree
      · obtain ⟨l₅, hl5⟩ := startsWithDate_shape l hlD
        obtain ⟨D₂, hRW, hD₂O, hD₂brk⟩ := rewriteDateLine_shape y m d l
        constructor
        · rw [hzdef, hact, hRW, joinLines_decomp]
          have hS' : Sane (isoStr y m d)
              (joinPre A ++ 'D' :: 'a' :: (('t' :: 'e' :: ':' :: l₅) ++ joinSuf B)) := by
            have h0 := hS
            rw [hSdec, joinLines_decomp, hl5] at h0
            exact h0
          exact sane_edit (isoStr y m d) (headingRepl_isoStr_tail_no_O y m d)
            (headingRepl_isoStr_free y m d) ('t' :: 'e' :: ':' :: l₅) D₂ (joinSuf B)
            hD₂O (joinPre A).length (joinPre A) (Nat.le_refl _) (joinPre_ends A) hS'
        · rw [hact]
          intro l' hl' c hc
          rcases List.mem_append.mp hl' with h | h
          · exact hSfree l' (by rw [hSdec]; exact List.mem_append.mpr (Or.inl h)) c hc
          · rcases List.mem_cons.mp h with rfl | h
            · rw [hRW] at hc
              exact hD₂brk c hc
            · exact hSfree l'
                (by rw [hSdec]
                    exact List.mem_append.mpr (Or.inr (List.mem_cons.mpr (Or.inr h))))
                c hc
    have hlastne : (fixDateLines (isoStr y m d) 6
        (splitlines (subHeading (isoStr y m d) x))).getLast?
        ≠ some ([] : List Char) := by
      intro hlast
      rcases hL : fixDateLines (isoStr y m d) 6
          (splitlines (subHeading (isoStr y m d) x)) with _ | ⟨l0, _ | ⟨l1, rest⟩⟩
      · exact hze (by rw [hzdef, hL]; rfl)
      · rw [hL] at hlast
        have h0 : l0 = [] := by simpa using hlast
        exact hze (by rw [hzdef, hL, h0]; rfl)
      · rw [hL] at hlast
        refine hnl ?_
        rw [hzdef, hL]
        exact joinLines_ends_nl (l0 :: l1 :: rest) hlast
          (by simp only [List.length_cons]; omega)
    have hsplit : splitlines (sanitize_digest_for_issue x y m d)
        = fixDateLines (isoStr y m d) 6 (splitlines (subHeading (isoStr y m d) x)) := by
      rw [hzdef]
      exact splitlines_joinLines _ hLfree hlastne
    have hsub : subHeading (isoStr y m d) (sanitize_digest_for_issue x y m d)
        = sanitize_digest_for_issue x y m d :=
      sane_fix (isoStr y m d) (runPat_headingRepl y m d) _ hsane
    calc sanitize_digest_for_issue (sanitize_digest_for_issue x y m d) y m d
        = joinLines (fixDateLines (isoStr y m d) 6
            (splitlines (subHeading (isoStr y m d)
              (sanitize_digest_for_issue x y m d)))) := rfl
      _ = joinLines (fixDateLines (isoStr y m d) 6
            (fixDateLines (isoStr y m d) 6
              (splitlines (subHeading (isoStr y m d) x)))) := by rw [hsub, hsplit]
      _ = joinLines (fixDateLines (isoStr y m d) 6
            (splitlines (subHeading (isoStr y m d) x))) := by
          rw [fixDateLines_idem y m d hv 6]
      _ = sanitize_digest_for_issue x y m d := hzdef.symm

/-- Counterexample to unconditional idempotence: `"a\n\n"` sanitizes to
`"a\n"`, which re-sanitizes to `"a"`. -/
theorem c1_counterexample :
    sanitize_digest_for_issue
        (sanitize_digest_for_issue ['a', '\n', '\n'] 2024 6 10) 2024 6 10
      ≠ sanitize_digest_for_issue ['a', '\n', '\n'] 2024 6 10 := by
  decide

theorem c1_witness :
    validDate 2024 6 10 = true ∧
    (sanitize_digest_for_issue ['h', 'i'] 2024 6 10).getLast? ≠ some '\n' ∧
    sanitize_digest_for_issue
        (sanitize_digest_for_issue ['h', 'i'] 2024 6 10) 2024 6 10
      = sanitize_digest_for_issue ['h', 'i'] 2024 6 10 :=
  ⟨by decide, by decide, c1_sanitize_idem ['h', 'i'] 2024 6 10 (by decide) (by decide)⟩

/-! ### C2: a universal frame theorem for `sanitize_digest_for_issue` -/

/-- `fixDateLines` either changes nothing, or replaces exactly one line:
the first `Date:`-headed line, which lies among the first `fuel` lines;
every line before and after it is returned verbatim. -/
theorem fixDateLines_action_first (iso : List Char) :
    ∀ (fuel : Nat) (L : List (List Char)),
      fixDateLines iso fuel L = L ∨
      ∃ A l B, L = A ++ l :: B ∧ startsWithDate l = true ∧
        (∀ l' ∈ A, startsWithDate l' = false) ∧ A.length < fuel ∧
        fixDateLines iso fuel L = A ++ rewriteDateLine iso l :: B := by
  intro fuel
  induction fuel with
  | zero =>
    intro L
    left
    cases L <;> rfl
  | succ fuel ih =>
    intro L
    cases L with
    | nil => left; rfl
    | cons l ls =>
      cases hl : startsWithDate l with
      | true =>
        right
        exact ⟨[], l, ls, rfl, hl, by simp, Nat.succ_pos _, by simp [fixDateLines, hl]⟩
      | false =>
        rcases ih ls with h | ⟨A, l₀, B, hsplit, hl₀, hA, hlen, hfix⟩
        · left
          simp [fixDateLines, hl, h]
        · right
          refine ⟨l :: A, l₀, B, by rw [hsplit]; rfl, hl₀, ?_, ?_, ?_⟩
          · intro l' hl'
            rcases List.mem_cons.mp hl' with rfl | h
            · exact hl
            · exact hA l' h
          · simp only [List.length_cons]
            omega
          · simp [fixDateLines, hl, hfix]

/-- **C2** (corrected).  For *every* input, `sanitize_digest_for_issue`
changes nothing other than (a) heading-pattern occurrences, (b) the first
`Date:`-headed line among the first six lines, and (c) line-ending
normalization.  The output decomposes into the three transformations:
(a) the heading `re.sub` relates the input to `subHeading iso x` by
`OutRel`, which copies every character outside a heading match verbatim
and replaces each match by the canonical heading; (c) that text relates
to its line-normalized form by `LN`, which rewrites each line boundary
to `'\n'`, drops a single trailing terminator, and copies every other
character; and (b) the final output either equals that normalized text
exactly (no `Date:` line found), or differs from it in exactly one line —
the first `Date:`-headed line among the first six — with the text before
(`joinPre A`) and after (`joinSuf B`) that line character-identical on
both sides. -/
theorem c2_frame (x : List Char) (y m d : Nat) :
    OutRel (isoStr y m d) x (subHeading (isoStr y m d) x) ∧
    LN (subHeading (isoStr y m d) x)
      (joinLines (splitlines (subHeading (isoStr y m d) x))) ∧
    (sanitize_digest_for_issue x y m d
        = joinLines (splitlines (subHeading (isoStr y m d) x)) ∨
      ∃ A l B,
        splitlines (subHeading (isoStr y m d) x) = A ++ l :: B ∧
        startsWithDate l = true ∧
        (∀ l' ∈ A, startsWithDate l' = false) ∧
        A.length < 6 ∧
        joinLines (splitlines (subHeading (isoStr y m d) x))
          = joinPre A ++ (l ++ joinSuf B) ∧
        sanitize_digest_for_issue x y m d
          = joinPre A ++ (rewriteDateLine (isoStr y m d) l ++ joinSuf B)) := by
  have hzdef : sanitize_digest_for_issue x y m d
      = joinLines (fixDateLines (isoStr y m d) 6
          (splitlines (subHeading (isoStr y m d) x))) := rfl
  refine ⟨outRel_subHeading (isoStr y m d) x,
    ln_join_split (subHeading (isoStr y m d) x), ?_⟩
  rcases fixDateLines_action_first (isoStr y m d) 6
      (splitlines (subHeading (isoStr y m d) x)) with
    h | ⟨A, l, B, hdec, hl, hA, hlen, hfix⟩
  · left
    rw [hzdef, h]
  · right
    refine ⟨A, l, B, hdec, hl, hA, hlen, ?_, ?_⟩
    · rw [hdec, joinLines_decomp]
    · rw [hzdef, hfix, joinLines_decomp]
